import Mathlib

/-!
A shallow embedding of the lockblox/vertex reference-counted vertex store
(`include/vertex/Forest.h`, class `ManagedVertexMap`) and its copy-on-write
rewrite engine (`Tree`, including the nested `Pin` and `Mapping` classes).

Keys and payloads are `Nat`.  The C++ `VertexMap` (a `std::map` keyed by
vertex key) is modelled as an association list with unique keys; the
`EdgeMap` (a `std::multimap` from child key to parent key) is modelled as a
list of pairs used as a multiset.  C++ iterators are modelled by the key of
the entry they point at: the store promises not to invalidate iterators, so
a live iterator is determined by its key, and an `end()` result is `none`.
-/

namespace VertexLib

/-- Modelled from the spec: the repository's `Vertex.h` (the vertex class with
`self_edge()`, `edges()` and the `edges(container)` setter used by `Forest.h`
and the `Tree`) is not under `src/`.  Per the spec a vertex is
`{ key, payload, children : ordered sequence of Key }`, its key is a
caller-assigned identifier (no hashing or uniqueness-derivation is performed
by the core) and the declared self key must equal the storage key.  The
store below is keyed explicitly, so the vertex value is modelled as its
payload plus ordered child-key list; wherever the carried key matters - the
rewrite engine reinserts a replacement under its predecessor's key - the key
travels alongside the value (`Tree.KeyedVertex` and the keyed `Tree`
operations below). -/
structure Vertex where
  payload : Nat
  children : List Nat
deriving DecidableEq, Repr

/-- Injective encoding of a key list, for one caller key-assignment
policy. -/
def encodeKeyList : List Nat → Nat
  | [] => 0
  | a :: rest => Nat.pair a (encodeKeyList rest) + 1

/-- A concrete caller key-assignment policy used by the fixtures and the
content-keyed `Tree` convenience layer: the spec's caller chooses keys, and
this caller derives them injectively from the content so distinct fixture
vertices receive distinct keys.  (The spec's reinsertion semantics, where a
replacement carries its predecessor's key, is modelled by the keyed `Tree`
operations, which take the key alongside the value.) -/
def Vertex.self_edge (v : Vertex) : Nat :=
  Nat.pair v.payload (encodeKeyList v.children)

/-- A reference edge `(child key, parent key)`, the `EdgeMap` entry type. -/
abbrev Edge := Nat × Nat

/-- The reference-counted store of `Forest.h`: a vertex map plus a
child-to-parent reference-edge multimap. -/
structure ManagedVertexMap where
  vertices : List (Nat × Vertex)
  edges : List Edge
deriving DecidableEq, Repr

namespace ManagedVertexMap

/-- `ManagedVertexMap::find`: the vertex stored under a key. -/
def find (s : ManagedVertexMap) (key : Nat) : Option Vertex :=
  (s.vertices.find? (fun p => p.1 == key)).map (fun p => p.2)

/-- `ManagedVertexMap::count`: the number of reference edges naming `key`
as child (the reference count). -/
def count (s : ManagedVertexMap) (key : Nat) : Nat :=
  (s.edges.filter (fun e => e.1 == key)).length

/-- `ManagedVertexMap::insert(value)`: store the vertex under `value.first`
(a `std::map` insert - a no-op when the key is occupied), then
unconditionally append one reference edge `(child, value.first)` for every
entry of the vertex's child list (`edges_.insert` on the raw multimap).
Returns the store and whether the vertex was newly inserted. -/
def insert (s : ManagedVertexMap) (value : Nat × Vertex) :
    ManagedVertexMap × Bool :=
  let present := (s.vertices.find? (fun p => p.1 == value.1)).isSome
  let vertices := if present then s.vertices else s.vertices ++ [value]
  let edges := s.edges ++ value.2.children.map (fun c => (c, value.1))
  (⟨vertices, edges⟩, !present)

/-- The private `find(edge)`: whether the exact edge is present. -/
def findEdge (s : ManagedVertexMap) (e : Edge) : Bool :=
  s.edges.contains e

/-- `Forest::insert(link)` (the public edge insert used by `Pin`): insert
the edge only when no equal edge is present.  (The C++ asserts that both
endpoints exist; the model leaves the assertion out.) -/
def insertEdge (s : ManagedVertexMap) (e : Edge) : ManagedVertexMap × Bool :=
  if s.edges.contains e then (s, false)
  else ({ s with edges := s.edges ++ [e] }, true)

/-- One fuel-bounded unfolding of the cascading-deletion work loop of
`ManagedVertexMap::erase(edge_iterator)`: pop an edge, remove it, and when
the child's reference count has dropped to zero erase the child's vertex,
enqueueing its own child edges.  (When a popped edge is no longer present
the C++ would have asserted; the model treats the removal as a no-op and
continues.)  `eraseEdgeLoop` below supplies fuel that provably never runs
out (`eraseEdgeLoopGo_congr`), so this is exactly the C++ `while` loop. -/
def eraseEdgeLoopGo : Nat → ManagedVertexMap → List Edge → ManagedVertexMap
  | 0, s, _ => s
  | _, s, [] => s
  | fuel + 1, s, e :: rest =>
    let edges1 := s.edges.erase e
    if (edges1.filter (fun p => p.1 == e.1)).length = 0 then
      match s.vertices.find? (fun p => p.1 == e.1) with
      | some pv =>
        eraseEdgeLoopGo fuel
          ⟨s.vertices.eraseP (fun p => p.1 == e.1), edges1⟩
          (rest ++ pv.2.children.map (fun g => (g, e.1)))
      | none => eraseEdgeLoopGo fuel ⟨s.vertices, edges1⟩ rest
    else eraseEdgeLoopGo fuel ⟨s.vertices, edges1⟩ rest

/-- An upper bound on the number of iterations the work loop can still
make: each iteration pops one queue entry, and entries are pushed only when
a stored vertex is removed (one entry per child of the removed vertex). -/
def loopMeasure (s : ManagedVertexMap) (queue : List Edge) : Nat :=
  queue.length + (s.vertices.map (fun p => p.2.children.length + 1)).sum

/-- The cascading-deletion work loop (`ManagedVertexMap::erase` of an edge
iterator), run to completion. -/
def eraseEdgeLoop (s : ManagedVertexMap) (queue : List Edge) :
    ManagedVertexMap :=
  eraseEdgeLoopGo (loopMeasure s queue) s queue

/-- `ManagedVertexMap::erase(edge)` / `Forest::erase(link)` (public, checked):
find the edge and, when present, run the cascading-deletion loop from it. -/
def eraseEdge (s : ManagedVertexMap) (e : Edge) : ManagedVertexMap :=
  if s.edges.contains e then s.eraseEdgeLoop [e] else s

/-- `ManagedVertexMap::erase(pos)` (vertex erase, `pos` given by its key):
if and only if the reference count is zero, remove the edges from the vertex
to its children (each with cascading deletion) and then the vertex itself;
otherwise return the store unchanged. -/
def erase (s : ManagedVertexMap) (key : Nat) : ManagedVertexMap :=
  match s.find key with
  | none => s
  | some v =>
    if s.count key = 0 then
      let s1 := v.children.foldl (fun st c => st.eraseEdge (c, key)) s
      { s1 with vertices := s1.vertices.eraseP (fun p => p.1 == key) }
    else s

end ManagedVertexMap

/-- `insert_unique` from the Tree header: append a value to a container
unless an equal value is already present. -/
def insert_unique (v : Nat) (c : List Nat) : List Nat :=
  if c.contains v then c else c ++ [v]

/-- `exclude_copy` from the Tree header: copy a container dropping every
element equal to `x`. -/
def exclude_copy (x : Nat) (c : List Nat) : List Nat :=
  c.filter (fun y => y ≠ x)

/-- `unique_copy` from the Tree header: copy keeping only the first
occurrence of each element. -/
def unique_copy (c : List Nat) : List Nat :=
  c.foldl (fun out v => insert_unique v out) []

namespace Pin

/-- `Tree::Pin::Pin(vertices, key)`: insert the self-loop reference edge
`(key, key)` through the store's checked edge insert (a no-op when an equal
edge is already present). -/
def construct (s : ManagedVertexMap) (key : Nat) : ManagedVertexMap :=
  (s.insertEdge (key, key)).1

/-- `Tree::Pin::~Pin()` (on a pin not moved from): erase the self-loop edge
`(key, key)` through the store's checked, cascading edge erase. -/
def release (s : ManagedVertexMap) (key : Nat) : ManagedVertexMap :=
  s.eraseEdge (key, key)

end Pin

/-- `Tree::Mapping`: a correspondence from original vertex handles to their
replacements, keyed (via `Mapping::Compare`) by the key of the handle. -/
abbrev Mapping := List (Nat × Nat)

namespace Mapping

/-- The lookup underlying `map_.find` / `map_[input]`. -/
def lookup (m : Mapping) (input : Nat) : Option Nat :=
  (m.find? (fun p => p.1 == input)).map (fun p => p.2)

/-- The insert-or-overwrite of `map_[input] = output` on the (unique-keyed)
correspondence map. -/
def setEntry : Mapping → Nat → Nat → Mapping
  | [], i, o => [(i, o)]
  | p :: rest, i, o =>
    if p.1 == i then (i, o) :: rest else p :: setEntry rest i o

/-- `Tree::Mapping::set`: record `input ↦ output` only when the two handles
differ (`map_[input] = output` inserts or overwrites). -/
def set (m : Mapping) (input output : Nat) : Mapping :=
  if input == output then m else setEntry m input output

/-- `Tree::Mapping::get`: when a correspondence for `input` was recorded,
return the recorded replacement re-resolved by key against the current
store (`none` models the `end()` iterator when the replacement is no longer
stored); otherwise return `input` unchanged. -/
def get (m : Mapping) (s : ManagedVertexMap) (input : Nat) : Option Nat :=
  match m.lookup input with
  | none => some input
  | some out => if (s.find out).isSome then some out else none

end Mapping

/-- `Tree`: a shared store plus one root handle (modelled by its key). -/
structure Tree where
  store : ManagedVertexMap
  root : Nat
deriving DecidableEq, Repr

namespace Tree

/-- `Tree::root(value)` (the root setter): install the new root handle and
erase the superseded root vertex from the store (which cascades when its
reference count is zero). -/
def rootSet (t : Tree) (value : Nat) : Tree :=
  ⟨t.store.erase t.root, value⟩

/-- `Tree::empty()`: whether the root vertex has no children.  (A dangling
root would be undefined behaviour in the C++; the model answers `true`.) -/
def emptyTree (t : Tree) : Bool :=
  match t.store.find t.root with
  | some v => v.children.isEmpty
  | none => true

/-- The `enqueue_parents` lambda of `Tree::update`, applied to the edge
range of key `k` (`edges().equal_range(k)`), appending to `queue` each
candidate `(child, parent)` pair that survives the filter: the child is not
the current root, the parent key differs from the new vertex's own key, the
parent's key does not appear among the new vertex's children, and the parent
either has ancestors of its own or is the root.  (The C++ asserts that both
endpoints are stored; candidates with a missing endpoint are skipped.) -/
def seedFrom (t : Tree) (value : Vertex) (k : Nat) (queue : List Edge) :
    List Edge :=
  queue ++ (t.store.edges.filter (fun e => e.1 == k)).filterMap (fun e =>
    match t.store.find e.1, t.store.find e.2 with
    | some _, some _ =>
      if e.1 ≠ t.root ∧ e.2 ≠ value.self_edge ∧ ¬ value.children.contains e.2 ∧
          (t.store.count e.2 ≠ 0 ∨ e.2 = t.root) then
        some (e.1, e.2)
      else none
    | _, _ => none)

/-- The work-queue loop of `Tree::update`.  Each iteration pops a
`(source child, source parent)` pair, resolves both through the version
mapping, pins the resolved child (coalescing with the most recent pin),
rebuilds the parent with the child key replaced, inserts it, and either
installs it as root (when the old parent was the root), rolls it back (when
no further ancestors were enqueued), or records it in the mapping.  The C++
`while` loop's termination is not established by the source; `fuel` bounds
the iterations and is ample for every execution the theorems below touch
(in the general statements the loop is entered with an empty queue).  When a
resolved parent handle is no longer stored the C++ would read a freed node
(undefined behaviour); the model skips such a queue entry. -/
def updateLoop (fuel : Nat) (t : Tree) (value : Vertex) (mapping : Mapping)
    (pins : List Nat) (queue : List Edge) : Tree × Mapping × List Nat :=
  match fuel with
  | 0 => (t, mapping, pins)
  | fuel + 1 =>
    match queue with
    | [] => (t, mapping, pins)
    | (sourceChild, sourceParent) :: rest =>
      match mapping.get t.store sourceParent, mapping.get t.store sourceChild with
      | some tp, some tc =>
        match t.store.find tp with
        | none => updateLoop fuel t value mapping pins rest
        | some tpv =>
          let newPin := pins = [] ∨ pins.getLast? ≠ some tc
          let store1 := if newPin then Pin.construct t.store tc else t.store
          let pins1 := if newPin then pins ++ [tc] else pins
          let childList := insert_unique tc (exclude_copy sourceChild tpv.children)
          let newv : Vertex := ⟨tpv.payload, childList⟩
          let store2 := (store1.insert (newv.self_edge, newv)).1
          if t.root = tp then
            updateLoop fuel ((Tree.mk store2 t.root).rootSet newv.self_edge)
              value mapping pins1 rest
          else
            let seeded := Tree.seedFrom ⟨store2, t.root⟩ value sourceParent rest
            if seeded.length = rest.length then
              let store3 := store2.erase newv.self_edge
              updateLoop fuel ⟨store3, t.root⟩ value
                (mapping.set sourceParent tp) pins1 seeded
            else
              updateLoop fuel ⟨store2, t.root⟩ value
                (mapping.set sourceParent newv.self_edge) pins1 seeded
      | _, _ => updateLoop fuel t value mapping pins rest

/-- `Tree::update(source, value)`: insert the new vertex obtaining `target`,
record `source ↦ target`, seed the work queue from `source`'s reference
edges, install `target` as root when `source` is the root, drain the queue,
release all pins, and return `target`. -/
def update (t : Tree) (source : Nat) (value : Vertex) : Tree × Nat :=
  let store1 := (t.store.insert (value.self_edge, value)).1
  let target := value.self_edge
  let mapping := Mapping.set [] source target
  let t1 : Tree := ⟨store1, t.root⟩
  let queue := t1.seedFrom value source []
  let t2 := if source = t.root then t1.rootSet target else t1
  let fuel := store1.edges.length + store1.vertices.length + 8
  let result := updateLoop fuel t2 value mapping [] queue
  let finalStore := result.2.2.foldl (fun st k => Pin.release st k) result.1.store
  (⟨finalStore, result.1.root⟩, target)

/-- `Tree::insert(parent, edge)`: rebuild `parent`'s child list with the new
child key appended (set semantics) and delegate to `update`.  (The C++
dereferences `parent`; an unstored parent is skipped by the model.) -/
def insertEdgeChild (t : Tree) (parent : Nat) (edgeKey : Nat) : Tree × Nat :=
  match t.store.find parent with
  | none => (t, edgeKey)
  | some pv =>
    t.update parent ⟨pv.payload, insert_unique edgeKey (unique_copy pv.children)⟩

/-- `Tree::insert(parent, child_vertex)`: insert the child vertex into the
store, then wire its key into `parent` via `insert(parent, edge)`. -/
def insertChildVertex (t : Tree) (parent : Nat) (child : Vertex) : Tree × Nat :=
  let store1 := (t.store.insert (child.self_edge, child)).1
  Tree.insertEdgeChild ⟨store1, t.root⟩ parent child.self_edge

/-- `Tree::erase(parent, child)`: rebuild `parent`'s child list with the
child's key removed and delegate to `update`. -/
def eraseChild (t : Tree) (parent child : Nat) : Tree × Nat :=
  match t.store.find parent with
  | none => (t, child)
  | some pv =>
    t.update parent ⟨pv.payload, exclude_copy child pv.children⟩

/-!
The functions above key every inserted value by the content-derived
`self_edge` policy.  The spec's key model is different where rebuilds are
concerned: a vertex carries a caller-assigned key, the copy taken by the
rewrite step (`auto vertex = target_parent->second`) keeps that key, and
reinsertion of a replacement therefore happens under its predecessor's
key.  The keyed variants below model exactly that: the value travels as a
`(carried key, content)` pair and every rebuilt parent is inserted under
the resolved parent's own key.  The claims proved over the content-keyed
variants (identity updates, where the two key models coincide, and the
root-source update contract) are insensitive to the choice; the scenario
claim C2 is not, and is settled over the keyed variants.
-/

/-- Modelled from the spec: a vertex as the spec describes it for key flow,
its caller-assigned key paired with its content. -/
abbrev KeyedVertex := Nat × Vertex

/-- The `enqueue_parents` lambda of `Tree::update` under the spec's key
model: as `seedFrom`, with the new vertex's self key its carried key. -/
def seedFromKeyed (t : Tree) (value : KeyedVertex) (k : Nat)
    (queue : List Edge) : List Edge :=
  queue ++ (t.store.edges.filter (fun e => e.1 == k)).filterMap (fun e =>
    match t.store.find e.1, t.store.find e.2 with
    | some _, some _ =>
      if e.1 ≠ t.root ∧ e.2 ≠ value.1 ∧ ¬ value.2.children.contains e.2 ∧
          (t.store.count e.2 ≠ 0 ∨ e.2 = t.root) then
        some (e.1, e.2)
      else none
    | _, _ => none)

/-- The work-queue loop of `Tree::update` under the spec's key model: the
rebuilt parent is a copy of the resolved parent (`auto vertex =
target_parent->second`) and so carries the parent's own key `tp`; its
insertion, the root-set, the rollback erase and the mapping update all
happen at that key (`inserted_parent.first` is the iterator at `tp`
whether or not the `std::map` insert took place). -/
def updateLoopKeyed (fuel : Nat) (t : Tree) (value : KeyedVertex)
    (mapping : Mapping) (pins : List Nat) (queue : List Edge) :
    Tree × Mapping × List Nat :=
  match fuel with
  | 0 => (t, mapping, pins)
  | fuel + 1 =>
    match queue with
    | [] => (t, mapping, pins)
    | (sourceChild, sourceParent) :: rest =>
      match mapping.get t.store sourceParent,
          mapping.get t.store sourceChild with
      | some tp, some tc =>
        match t.store.find tp with
        | none => updateLoopKeyed fuel t value mapping pins rest
        | some tpv =>
          let newPin := pins = [] ∨ pins.getLast? ≠ some tc
          let store1 := if newPin then Pin.construct t.store tc else t.store
          let pins1 := if newPin then pins ++ [tc] else pins
          let childList :=
            insert_unique tc (exclude_copy sourceChild tpv.children)
          let newv : Vertex := ⟨tpv.payload, childList⟩
          let store2 := (store1.insert (tp, newv)).1
          if t.root = tp then
            updateLoopKeyed fuel ((Tree.mk store2 t.root).rootSet tp)
              value mapping pins1 rest
          else
            let seeded := seedFromKeyed ⟨store2, t.root⟩ value sourceParent rest
            if seeded.length = rest.length then
              let store3 := store2.erase tp
              updateLoopKeyed fuel ⟨store3, t.root⟩ value
                (mapping.set sourceParent tp) pins1 seeded
            else
              updateLoopKeyed fuel ⟨store2, t.root⟩ value
                (mapping.set sourceParent tp) pins1 seeded
      | _, _ => updateLoopKeyed fuel t value mapping pins rest

/-- `Tree::update(source, value)` under the spec's key model: the target
handle is the key the new value carries (`std::map::insert` returns the
iterator at that key whether or not insertion took place). -/
def updateKeyed (t : Tree) (source : Nat) (value : KeyedVertex) :
    Tree × Nat :=
  let store1 := (t.store.insert value).1
  let target := value.1
  let mapping := Mapping.set [] source target
  let t1 : Tree := ⟨store1, t.root⟩
  let queue := t1.seedFromKeyed value source []
  let t2 := if source = t.root then t1.rootSet target else t1
  let fuel := store1.edges.length + store1.vertices.length + 8
  let result := updateLoopKeyed fuel t2 value mapping [] queue
  let finalStore :=
    result.2.2.foldl (fun st k => Pin.release st k) result.1.store
  (⟨finalStore, result.1.root⟩, target)

/-- `Tree::insert(parent, edge)` under the spec's key model: the rebuilt
parent is a copy of `parent` (`auto vertex = vertex_type(parent->second)`)
and so carries `parent`'s key into `update`. -/
def insertEdgeChildKeyed (t : Tree) (parent : Nat) (edgeKey : Nat) :
    Tree × Nat :=
  match t.store.find parent with
  | none => (t, edgeKey)
  | some pv =>
    t.updateKeyed parent
      (parent, ⟨pv.payload, insert_unique edgeKey (unique_copy pv.children)⟩)

/-- `Tree::insert(parent, child_vertex)` under the spec's key model: insert
the child under its carried key, then wire it in via the edge overload. -/
def insertChildKeyed (t : Tree) (parent : Nat) (child : KeyedVertex) :
    Tree × Nat :=
  let store1 := (t.store.insert child).1
  Tree.insertEdgeChildKeyed ⟨store1, t.root⟩ parent child.1

end Tree

/-- Modelled from the spec: `erase(handle)` as the error-handling design
describes it - calling `erase` on a vertex with nonzero reference count is a
precondition violation that "should fail loudly (abort or typed error)
rather than silently corrupt"; the loud failure is a typed error (`none`). -/
def ManagedVertexMap.eraseChecked (s : ManagedVertexMap) (key : Nat) :
    Option ManagedVertexMap :=
  if s.count key ≠ 0 then none else some (s.erase key)

/-- Reachability along stored child lists (the spec's "reachable from a
root"): `Reaches s a b` when a chain of stored vertices leads from `a` to
`b` by following child keys. -/
inductive Reaches (s : ManagedVertexMap) : Nat → Nat → Prop where
  | refl (k : Nat) : Reaches s k k
  | step (a b c : Nat) (v : Vertex) : s.find a = some v → b ∈ v.children →
      Reaches s b c → Reaches s a c

/-- Store states reachable from the empty store by the public store
operations honouring their documented preconditions: `insert` of a vertex
whose key is not yet occupied and whose child list has no duplicates, and
`erase` of a vertex position (which the code makes a no-op unless the
reference count is zero). -/
inductive StoreReachable : ManagedVertexMap → Prop where
  | empty : StoreReachable ⟨[], []⟩
  | insert (s : ManagedVertexMap) (k : Nat) (v : Vertex) :
      StoreReachable s → s.find k = none → v.children.Nodup →
      StoreReachable (s.insert (k, v)).1
  | erase (s : ManagedVertexMap) (k : Nat) :
      StoreReachable s → StoreReachable (s.erase k)

/-!
Fixtures.  `vD`/`vB` serve the root-replacement fixture; the spec scenario
(root `A` with children `[B, C]`, `B` with child `[D]`, then
`insertChild(D, newLeaf E)`) is run over the keyed operations with the
caller-assigned keys `A = 0`, `B = 1`, `C = 2`, `D = 3`, `E = 4`, every
rebuilt vertex sharing its predecessor's key as the spec prescribes.
-/

/-- Fixture leaf `D`. -/
def vD : Vertex := ⟨3, []⟩

/-- Fixture vertex `B`, child list `[D]`. -/
def vB : Vertex := ⟨1, [vD.self_edge]⟩

/-- The scenario store under caller-assigned keys: what the four
preconditioned inserts of `C`, `D`, `B`, `A` (leaves first) produce. -/
def kScenarioStore : ManagedVertexMap :=
  ((((((ManagedVertexMap.mk [] []).insert (2, ⟨2, []⟩)).1.insert
    (3, ⟨3, []⟩)).1.insert (1, ⟨1, [3]⟩)).1.insert
    (0, ⟨0, [1, 2]⟩)).1)

/-- The scenario tree, rooted at `A` (key 0). -/
def kScenarioTree : Tree := ⟨kScenarioStore, 0⟩

/-- The scenario operation `insertChild(D, newLeaf E)` under the spec's
key model. -/
def kScenarioResult : Tree × Nat :=
  kScenarioTree.insertChildKeyed 3 (4, ⟨4, []⟩)

/-- Fixture for root replacement: a two-vertex store `B -> D`. -/
def pairStore : ManagedVertexMap :=
  (((ManagedVertexMap.mk [] []).insert (vD.self_edge, vD)).1.insert
    (vB.self_edge, vB)).1

/-- The tree rooted at `B` over `pairStore`. -/
def pairTree : Tree := ⟨pairStore, vB.self_edge⟩

/-- Updating `pairTree`'s root with its own stored value (`update(root,
sameValueAsRoot)`). -/
def pairIdentityResult : Tree × Nat := pairTree.update vB.self_edge vB

/-- Fixture for update idempotence: the single leaf `⟨8, []⟩`. -/
def vLeaf8 : Vertex := ⟨8, []⟩

/-- A one-vertex tree rooted at that leaf. -/
def leafTree : Tree :=
  ⟨((ManagedVertexMap.mk [] []).insert (vLeaf8.self_edge, vLeaf8)).1,
    vLeaf8.self_edge⟩

/-- Updating `leafTree`'s root with its own stored value. -/
def leafIdentityResult : Tree × Nat := leafTree.update vLeaf8.self_edge vLeaf8

/-- The edge multiplicity induced by the stored vertices: how many times
the stored vertex under `e`'s parent key lists `e`'s child key. -/
def vmult (s : ManagedVertexMap) (e : Edge) : Nat :=
  match s.find e.2 with
  | some v => v.children.count e.1
  | none => 0

/-- The edge multiset exactly mirrors the stored child lists. -/
def EdgesMatch (s : ManagedVertexMap) : Prop :=
  ∀ e : Edge, s.edges.count e = vmult s e

/-- Every stored child list is duplicate-free. -/
def DupFree (s : ManagedVertexMap) : Prop :=
  ∀ p ∈ s.vertices, p.2.children.Nodup

/-- Storage keys are unique (the `VertexMap` is a map). -/
def KeysNodup (s : ManagedVertexMap) : Prop :=
  (s.vertices.map (fun p => p.1)).Nodup

/-- The combined store invariant behind refcount integrity. -/
def Inv (s : ManagedVertexMap) : Prop :=
  EdgesMatch s ∧ DupFree s ∧ KeysNodup s

/-- The number of distinct stored parent vertices whose child list
contains `k`. -/
def parentsContaining (s : ManagedVertexMap) (k : Nat) : Nat :=
  (s.vertices.filter (fun p => p.2.children.contains k)).length

/-- The edge multiset a vertex list induces: one `(child, parent)` pair per
child-list entry of each stored vertex. -/
def vertexEdges (verts : List (Nat × Vertex)) : List Edge :=
  verts.flatMap (fun p => p.2.children.map (fun c => (c, p.1)))

/-! ### Frame lemmas about the cascading-deletion loop -/

namespace ManagedVertexMap

theorem eraseEdgeLoopGo_nil (n : Nat) (s : ManagedVertexMap) :
    eraseEdgeLoopGo n s [] = s := by
  cases n <;> rfl

theorem eraseEdgeLoopGo_zero (s : ManagedVertexMap) (q : List Edge) :
    eraseEdgeLoopGo 0 s q = s := by
  cases q <;> rfl

theorem sum_children_eraseP (verts : List (Nat × Vertex))
    (p : Nat × Vertex → Bool) (pv : Nat × Vertex)
    (hfind : verts.find? p = some pv) :
    ((verts.eraseP p).map (fun q => q.2.children.length + 1)).sum +
      (pv.2.children.length + 1) =
      (verts.map (fun q => q.2.children.length + 1)).sum := by
  induction verts with
  | nil => cases hfind
  | cons hd tl ih =>
    by_cases hp : p hd
    · rw [List.find?_cons_of_pos _ hp] at hfind
      cases hfind
      rw [List.eraseP_cons_of_pos hp]
      simp [Nat.add_comm]
    · have hp2 : ¬ p hd = true := hp
      rw [List.find?_cons_of_neg _ hp2] at hfind
      rw [List.eraseP_cons_of_neg hp2]
      simp only [List.map_cons, List.sum_cons]
      have := ih hfind
      omega

theorem loopMeasure_cons (s : ManagedVertexMap) (e : Edge)
    (rest : List Edge) :
    loopMeasure s (e :: rest) = loopMeasure s rest + 1 := by
  unfold loopMeasure
  simp only [List.length_cons]
  omega

theorem loopMeasure_erase_branch (s : ManagedVertexMap) (e : Edge)
    (rest : List Edge) {pv : Nat × Vertex}
    (hfind : s.vertices.find? (fun p => p.1 == e.1) = some pv) :
    loopMeasure ⟨s.vertices.eraseP (fun p => p.1 == e.1), s.edges.erase e⟩
        (rest ++ pv.2.children.map (fun g => (g, e.1))) + 2 =
      loopMeasure s (e :: rest) := by
  have hsum := sum_children_eraseP s.vertices (fun p => p.1 == e.1) pv hfind
  unfold loopMeasure
  simp only [List.length_append, List.length_cons, List.length_map]
  omega

/-- Fuel irrelevance: with at least `loopMeasure` fuel, the bounded loop
computes the same result whatever the fuel, i.e. it is the unbounded loop. -/
theorem eraseEdgeLoopGo_congr :
    ∀ (n m : Nat) (s : ManagedVertexMap) (q : List Edge),
      loopMeasure s q ≤ n → loopMeasure s q ≤ m →
      eraseEdgeLoopGo n s q = eraseEdgeLoopGo m s q := by
  intro n
  induction n with
  | zero =>
    intro m s q hn _
    have hq : q = [] := by
      cases q with
      | nil => rfl
      | cons e rest =>
        rw [loopMeasure_cons] at hn
        omega
    subst hq
    rw [eraseEdgeLoopGo_nil, eraseEdgeLoopGo_nil]
  | succ n ih =>
    intro m s q hn hm
    cases q with
    | nil => rw [eraseEdgeLoopGo_nil, eraseEdgeLoopGo_nil]
    | cons e rest =>
      have hc := loopMeasure_cons s e rest
      obtain ⟨m2, rfl⟩ : ∃ m2, m = m2 + 1 := ⟨m - 1, by omega⟩
      show eraseEdgeLoopGo (n + 1) s (e :: rest) =
        eraseEdgeLoopGo (m2 + 1) s (e :: rest)
      rw [eraseEdgeLoopGo, eraseEdgeLoopGo]
      by_cases hlen :
          ((s.edges.erase e).filter (fun p => p.1 == e.1)).length = 0
      · rw [if_pos hlen, if_pos hlen]
        cases hfind : s.vertices.find? (fun p => p.1 == e.1) with
        | some pv =>
          have hme := loopMeasure_erase_branch s e rest hfind
          exact ih _ _ _ (by omega) (by omega)
        | none =>
          have hr : loopMeasure ⟨s.vertices, s.edges.erase e⟩ rest =
              loopMeasure s rest := rfl
          exact ih _ _ _ (by omega) (by omega)
      · rw [if_neg hlen, if_neg hlen]
        have hr : loopMeasure ⟨s.vertices, s.edges.erase e⟩ rest =
            loopMeasure s rest := rfl
        exact ih _ _ _ (by omega) (by omega)

theorem eraseEdgeLoop_eq_go (s : ManagedVertexMap) (q : List Edge)
    (n : Nat) (h : loopMeasure s q ≤ n) :
    eraseEdgeLoop s q = eraseEdgeLoopGo n s q :=
  eraseEdgeLoopGo_congr (loopMeasure s q) n s q (Nat.le_refl _) h

theorem eraseEdgeLoop_nil (s : ManagedVertexMap) : eraseEdgeLoop s [] = s :=
  eraseEdgeLoopGo_nil _ s

theorem eraseEdgeLoop_cons_erase (s : ManagedVertexMap) (e : Edge)
    (rest : List Edge)
    (hlen : (((s.edges.erase e)).filter (fun p => p.1 == e.1)).length = 0)
    {pv : Nat × Vertex}
    (hfind : s.vertices.find? (fun p => p.1 == e.1) = some pv) :
    eraseEdgeLoop s (e :: rest) =
      eraseEdgeLoop ⟨s.vertices.eraseP (fun p => p.1 == e.1), s.edges.erase e⟩
        (rest ++ pv.2.children.map (fun g => (g, e.1))) := by
  have hme := loopMeasure_erase_branch s e rest hfind
  have h1 : eraseEdgeLoop s (e :: rest) =
      eraseEdgeLoopGo (loopMeasure s (e :: rest)) s (e :: rest) := rfl
  rw [h1, loopMeasure_cons]
  rw [eraseEdgeLoopGo]
  rw [if_pos hlen, hfind]
  rw [loopMeasure_cons] at hme
  exact (eraseEdgeLoop_eq_go _ _ _ (by omega)).symm

theorem eraseEdgeLoop_cons_absent (s : ManagedVertexMap) (e : Edge)
    (rest : List Edge)
    (hlen : (((s.edges.erase e)).filter (fun p => p.1 == e.1)).length = 0)
    (hfind : s.vertices.find? (fun p => p.1 == e.1) = none) :
    eraseEdgeLoop s (e :: rest) =
      eraseEdgeLoop ⟨s.vertices, s.edges.erase e⟩ rest := by
  have h1 : eraseEdgeLoop s (e :: rest) =
      eraseEdgeLoopGo (loopMeasure s (e :: rest)) s (e :: rest) := rfl
  rw [h1, loopMeasure_cons]
  rw [eraseEdgeLoopGo]
  rw [if_pos hlen, hfind]
  have : loopMeasure ⟨s.vertices, s.edges.erase e⟩ rest =
      loopMeasure s rest := rfl
  exact (eraseEdgeLoop_eq_go _ _ _ (by omega)).symm

theorem eraseEdgeLoop_cons_live (s : ManagedVertexMap) (e : Edge)
    (rest : List Edge)
    (hlen : ¬ (((s.edges.erase e)).filter (fun p => p.1 == e.1)).length = 0) :
    eraseEdgeLoop s (e :: rest) =
      eraseEdgeLoop ⟨s.vertices, s.edges.erase e⟩ rest := by
  have h1 : eraseEdgeLoop s (e :: rest) =
      eraseEdgeLoopGo (loopMeasure s (e :: rest)) s (e :: rest) := rfl
  rw [h1, loopMeasure_cons]
  rw [eraseEdgeLoopGo]
  rw [if_neg hlen]
  have : loopMeasure ⟨s.vertices, s.edges.erase e⟩ rest =
      loopMeasure s rest := rfl
  exact (eraseEdgeLoop_eq_go _ _ _ (by omega)).symm

theorem eraseEdgeLoopGo_vertices_sublist (n : Nat) :
    ∀ (s : ManagedVertexMap) (q : List Edge),
      (eraseEdgeLoopGo n s q).vertices.Sublist s.vertices := by
  induction n with
  | zero => intro s q; rw [eraseEdgeLoopGo_zero]
  | succ n ih =>
    intro s q
    cases q with
    | nil =>
      rw [eraseEdgeLoopGo_nil]
    | cons e rest =>
      show (eraseEdgeLoopGo (n + 1) s (e :: rest)).vertices.Sublist s.vertices
      rw [eraseEdgeLoopGo]
      split
      · split
        · exact (ih _ _).trans (List.eraseP_sublist _)
        · exact ih _ _
      · exact ih _ _

theorem eraseEdgeLoopGo_edges_sublist (n : Nat) :
    ∀ (s : ManagedVertexMap) (q : List Edge),
      (eraseEdgeLoopGo n s q).edges.Sublist s.edges := by
  induction n with
  | zero => intro s q; rw [eraseEdgeLoopGo_zero]
  | succ n ih =>
    intro s q
    cases q with
    | nil =>
      rw [eraseEdgeLoopGo_nil]
    | cons e rest =>
      show (eraseEdgeLoopGo (n + 1) s (e :: rest)).edges.Sublist s.edges
      rw [eraseEdgeLoopGo]
      split
      · split
        · exact ((ih _ _).trans (List.erase_sublist _ _))
        · exact ((ih _ _).trans (List.erase_sublist _ _))
      · exact ((ih _ _).trans (List.erase_sublist _ _))

theorem eraseEdgeLoop_vertices_sublist (s : ManagedVertexMap)
    (q : List Edge) : (eraseEdgeLoop s q).vertices.Sublist s.vertices :=
  eraseEdgeLoopGo_vertices_sublist _ s q

theorem eraseEdgeLoop_edges_sublist (s : ManagedVertexMap) (q : List Edge) :
    (eraseEdgeLoop s q).edges.Sublist s.edges :=
  eraseEdgeLoopGo_edges_sublist _ s q

theorem eraseEdge_vertices_sublist (s : ManagedVertexMap) (e : Edge) :
    (s.eraseEdge e).vertices.Sublist s.vertices := by
  unfold eraseEdge
  split
  · exact eraseEdgeLoop_vertices_sublist s [e]
  · exact List.Sublist.refl _

theorem eraseEdge_edges_sublist (s : ManagedVertexMap) (e : Edge) :
    (s.eraseEdge e).edges.Sublist s.edges := by
  unfold eraseEdge
  split
  · exact eraseEdgeLoop_edges_sublist s [e]
  · exact List.Sublist.refl _

theorem count_le_of_edges_sublist {s r : ManagedVertexMap}
    (h : r.edges.Sublist s.edges) (k : Nat) : r.count k ≤ s.count k :=
  (h.filter _).length_le

end ManagedVertexMap

set_option maxRecDepth 10000

/-! ### Version-mapping lemmas -/

theorem lookup_setEntry_self (m : Mapping) (i o : Nat) :
    Mapping.lookup (Mapping.setEntry m i o) i = some o := by
  induction m with
  | nil => simp [Mapping.setEntry, Mapping.lookup, List.find?]
  | cons hd tl ih =>
    by_cases hk : hd.1 = i
    · simp [Mapping.setEntry, hk, Mapping.lookup, List.find?]
    · have hk2 : (hd.1 == i) = false := by simp [hk]
      simp only [Mapping.setEntry, hk2, Bool.false_eq_true, if_false]
      simpa [Mapping.lookup, List.find?_cons, hk2] using ih

/-! ### Claim theorems: Mapping semantics (C9) -/

/-- C9.  Version Mapping semantics: `set(old, new)` records a correspondence
only when `old ≠ new` (recording with `old = new` leaves the mapping
unchanged), and `get(old)` returns the recorded replacement re-resolved by
key against the current store when a correspondence was recorded (the
`end()` handle, `none`, when the replacement is no longer stored), and
returns `old` itself unchanged when none was recorded. -/
theorem mapping_version_semantics (m : Mapping) (s : ManagedVertexMap)
    (i o : Nat) :
    (Mapping.set m i i = m) ∧
    (i ≠ o → Mapping.lookup (Mapping.set m i o) i = some o) ∧
    (Mapping.lookup m i = some o →
      Mapping.get m s i = if (s.find o).isSome then some o else none) ∧
    (Mapping.lookup m i = none → Mapping.get m s i = some i) := by
  refine ⟨by simp [Mapping.set], ?_, ?_, ?_⟩
  · intro hne
    unfold Mapping.set
    rw [if_neg (by simp [hne])]
    exact lookup_setEntry_self m i o
  · intro hrec
    unfold Mapping.get
    rw [hrec]
  · intro hrec
    unfold Mapping.get
    rw [hrec]

theorem mapping_version_semantics_witness :
    (Mapping.lookup (Mapping.set [(5, 7)] 3 4) 3 = some 4) ∧
    (Mapping.get [(5, 7)] ⟨[], []⟩ 5 = none) ∧
    (Mapping.get [(5, 7)] ⟨[], []⟩ 3 = some 3) :=
  ⟨(mapping_version_semantics [(5, 7)] ⟨[], []⟩ 3 4).2.1 (by decide),
   (mapping_version_semantics [(5, 7)] ⟨[], []⟩ 5 7).2.2.1 (by decide),
   (mapping_version_semantics [(5, 7)] ⟨[], []⟩ 3 0).2.2.2 (by decide)⟩

/-! ### Claim theorems: occupied-key insert (C10) -/

/-- C10.  For a vertex value inserted under a key already occupied in the
store, `insert` leaves the vertex stored under that key unchanged (no
overwrite, and the returned flag reports no insertion), yet still appends
one reference edge `(c, key)` for every element `c` of the new value's
child list, so every such child's reference count grows by its multiplicity
in the child list even though no new parent vertex was stored. -/
theorem insert_occupied_no_overwrite_adds_edges (s : ManagedVertexMap)
    (k : Nat) (v w : Vertex) (h : s.find k = some w) :
    ((s.insert (k, v)).1.find k = some w) ∧
    ((s.insert (k, v)).1.vertices = s.vertices) ∧
    ((s.insert (k, v)).1.edges = s.edges ++ v.children.map (fun c => (c, k))) ∧
    (∀ c : Nat, (s.insert (k, v)).1.count c = s.count c + v.children.count c) ∧
    ((s.insert (k, v)).2 = false) := by
  have hsome : (s.vertices.find? (fun p => p.1 == k)).isSome := by
    unfold ManagedVertexMap.find at h
    cases hf : s.vertices.find? (fun p => p.1 == k) <;> simp [hf] at h ⊢
  refine ⟨?_, ?_, ?_, ?_, ?_⟩
  · simp only [ManagedVertexMap.insert, ManagedVertexMap.find,
      hsome, if_pos] at h ⊢
    exact h
  · unfold ManagedVertexMap.insert
    simp [hsome]
  · unfold ManagedVertexMap.insert
    simp [hsome]
  · intro c
    unfold ManagedVertexMap.insert ManagedVertexMap.count
    simp only [hsome, if_pos, List.filter_append, List.length_append,
      List.filter_map]
    congr 1
    rw [List.length_map, List.count_eq_countP, List.countP_eq_length_filter]
    rfl
  · unfold ManagedVertexMap.insert
    simp [hsome]

theorem insert_occupied_no_overwrite_adds_edges_witness :
    let s1 : ManagedVertexMap :=
      ((ManagedVertexMap.mk [] []).insert (1, ⟨1, []⟩)).1
    let s2 : ManagedVertexMap := (s1.insert (0, ⟨0, [1]⟩)).1
    (s2.find 0 = some ⟨0, [1]⟩) ∧
    ((s2.insert (0, ⟨0, [1]⟩)).1.count 1 = 2) ∧
    ((s2.insert (0, ⟨0, [1]⟩)).1.find 0 = some ⟨0, [1]⟩) := by
  intro s1 s2
  have h := insert_occupied_no_overwrite_adds_edges s2 0 ⟨0, [1]⟩ ⟨0, [1]⟩
    (by decide)
  refine ⟨by decide, ?_, h.1⟩
  rw [h.2.2.2.1 1]
  decide

/-! ### Claim theorems: erase precondition handling (C5) -/

/-- C5 (amended).  Calling `erase` on a vertex whose key has a nonzero
reference count does not fail loudly: the code silently skips the erase,
returning the store completely unchanged (so nothing is corrupted, but no
abort or typed error is raised either). -/
theorem erase_nonzero_refcount_silent_noop (s : ManagedVertexMap) (k : Nat)
    (h : s.count k ≠ 0) : s.erase k = s := by
  unfold ManagedVertexMap.erase
  cases hf : s.find k
  · rfl
  · simp [h]

theorem erase_nonzero_refcount_silent_noop_witness :
    let s : ManagedVertexMap :=
      ((((ManagedVertexMap.mk [] []).insert (1, ⟨1, []⟩)).1).insert
        (0, ⟨0, [1]⟩)).1
    s.count 1 ≠ 0 ∧ s.erase 1 = s := by
  intro s
  exact ⟨by decide, erase_nonzero_refcount_silent_noop s 1 (by decide)⟩

/-- C5, counterexample.  The claim says an erase on a nonzero-refcount
vertex "fails loudly (assertion/abort or typed error) rather than
proceeding silently" and "never ... quietly skips the erase".  On this
store (vertex `0` references vertex `1`, so `count 1 = 1`) the code's
`erase` quietly skips and returns the store unchanged - there is no error
path - while the spec-modelled checked variant reports the typed error. -/
theorem erase_nonzero_refcount_loud_failure_cex :
    let s : ManagedVertexMap :=
      ((((ManagedVertexMap.mk [] []).insert (2, ⟨2, []⟩)).1).insert
        (3, ⟨3, [2]⟩)).1
    s.count 2 = 1 ∧ s.erase 2 = s ∧ s.eraseChecked 2 = none := by
  decide

/-! ### Claim theorems: Pin round trip (C8) -/

/-- C8 (amended).  For a key `k` present in the store with no self-loop
edge `(k, k)` already recorded, constructing a `Pin` on `k` adds the edge
`(k, k)` and increments `referenceCount(k)` by exactly one, and releasing
the pin removes that edge again, returning `referenceCount(k)` to its value
from before the pin existed (with cascading deletion triggered only when
the count reaches zero, which cannot raise the count back up). -/
theorem pin_round_trip (s : ManagedVertexMap) (k : Nat) (v : Vertex)
    (hstored : s.find k = some v) (hfree : (k, k) ∉ s.edges) :
    ((Pin.construct s k).count k = s.count k + 1) ∧
    ((k, k) ∈ (Pin.construct s k).edges) ∧
    ((Pin.release (Pin.construct s k) k).count k = s.count k) ∧
    ((k, k) ∉ (Pin.release (Pin.construct s k) k).edges) := by
  have hc : Pin.construct s k =
      ManagedVertexMap.mk s.vertices (s.edges ++ [(k, k)]) := by
    unfold Pin.construct ManagedVertexMap.insertEdge
    rw [if_neg (by simpa using hfree)]
  have hcount : (Pin.construct s k).count k = s.count k + 1 := by
    rw [hc]
    unfold ManagedVertexMap.count
    rw [List.filter_append]
    simp
  have hmem : (k, k) ∈ (Pin.construct s k).edges := by
    rw [hc]; simp
  have herase : (s.edges ++ [(k, k)]).erase (k, k) = s.edges := by
    rw [List.erase_append_right _ hfree]
    simp
  have hrel : Pin.release (Pin.construct s k) k =
      ManagedVertexMap.eraseEdgeLoop
        (ManagedVertexMap.mk s.vertices (s.edges ++ [(k, k)])) [(k, k)] := by
    rw [hc]
    unfold Pin.release ManagedVertexMap.eraseEdge
    rw [if_pos (by simp)]
  have hmain : (Pin.release (Pin.construct s k) k).count k = s.count k ∧
      (Pin.release (Pin.construct s k) k).edges.Sublist s.edges := by
    rw [hrel]
    by_cases h0 : s.count k = 0
    · have hlen : (((ManagedVertexMap.mk s.vertices
          (s.edges ++ [(k, k)])).edges.erase ((k, k) : Edge)).filter
            (fun p => p.1 == ((k, k) : Edge).1)).length = 0 := by
        show ((((s.edges ++ [(k, k)]).erase (k, k))).filter
          (fun p => p.1 == k)).length = 0
        rw [herase]
        exact h0
      obtain ⟨pv, hpv⟩ : ∃ pv,
          s.vertices.find? (fun p => p.1 == k) = some pv := by
        unfold ManagedVertexMap.find at hstored
        cases hf : s.vertices.find? (fun p => p.1 == k)
        · rw [hf] at hstored; cases hstored
        · exact ⟨_, rfl⟩
      rw [ManagedVertexMap.eraseEdgeLoop_cons_erase _ _ _ hlen hpv]
      change (ManagedVertexMap.eraseEdgeLoop
          (ManagedVertexMap.mk (s.vertices.eraseP (fun p => p.1 == k))
            ((s.edges ++ [(k, k)]).erase (k, k)))
          (pv.2.children.map (fun g => (g, k)))).count k = s.count k ∧
        (ManagedVertexMap.eraseEdgeLoop
          (ManagedVertexMap.mk (s.vertices.eraseP (fun p => p.1 == k))
            ((s.edges ++ [(k, k)]).erase (k, k)))
          (pv.2.children.map (fun g => (g, k)))).edges.Sublist s.edges
      rw [herase]
      have hsub := ManagedVertexMap.eraseEdgeLoop_edges_sublist
        (ManagedVertexMap.mk (s.vertices.eraseP (fun p => p.1 == k)) s.edges)
        (pv.2.children.map (fun g => (g, k)))
      have hle := ManagedVertexMap.count_le_of_edges_sublist hsub k
      have heq : ManagedVertexMap.count
          (ManagedVertexMap.mk (s.vertices.eraseP (fun p => p.1 == k))
            s.edges) k = s.count k := rfl
      exact ⟨by omega, hsub⟩
    · have hlen : ¬ ((((ManagedVertexMap.mk s.vertices
          (s.edges ++ [(k, k)])).edges.erase ((k, k) : Edge)).filter
            (fun p => p.1 == ((k, k) : Edge).1)).length = 0) := by
        show ¬ ((((s.edges ++ [(k, k)]).erase (k, k))).filter
          (fun p => p.1 == k)).length = 0
        rw [herase]
        exact h0
      rw [ManagedVertexMap.eraseEdgeLoop_cons_live _ _ _ hlen]
      have hstep : ManagedVertexMap.eraseEdgeLoop
          (ManagedVertexMap.mk s.vertices
            ((s.edges ++ [(k, k)]).erase (k, k))) [] =
          ManagedVertexMap.mk s.vertices s.edges := by
        rw [ManagedVertexMap.eraseEdgeLoop_nil, herase]
      rw [hstep]
      exact ⟨rfl, List.Sublist.refl _⟩
  exact ⟨hcount, hmem, hmain.1, fun hin => hfree (hmain.2.subset hin)⟩

theorem pin_round_trip_witness :
    let s : ManagedVertexMap :=
      ((((ManagedVertexMap.mk [] []).insert (1, ⟨1, []⟩)).1).insert
        (0, ⟨0, [1]⟩)).1
    ((Pin.construct s 1).count 1 = s.count 1 + 1) ∧
    ((Pin.release (Pin.construct s 1) 1).count 1 = s.count 1) := by
  intro s
  have h := pin_round_trip s 1 ⟨1, []⟩ (by decide) (by decide)
  exact ⟨h.1, h.2.2.1⟩

/-- C8, counterexample.  The claim quantifies over every key present in the
store.  For a store holding the vertex `⟨5, [0]⟩` under key `0` (so the
self-loop edge `(0, 0)` is already recorded by `insert`), constructing a
`Pin` on `0` is coalesced into a no-op - the count stays `1` instead of
rising to `2` - and releasing the pin removes the pre-existing edge,
dropping the count to `0` (cascading away the vertex) instead of restoring
the count from before the pin existed. -/
theorem pin_round_trip_cex :
    let s : ManagedVertexMap :=
      ((ManagedVertexMap.mk [] []).insert (0, ⟨5, [0]⟩)).1
    (s.find 0).isSome ∧ s.count 0 = 1 ∧
    ¬ ((Pin.construct s 0).count 0 = s.count 0 + 1) ∧
    ¬ ((Pin.release (Pin.construct s 0) 0).count 0 = s.count 0) := by
  decide

/-! ### Claim theorems: update returns target and flips the root (C6) -/

theorem updateLoop_nil (fuel : Nat) (t : Tree) (value : Vertex)
    (m : Mapping) (pins : List Nat) :
    Tree.updateLoop fuel t value m pins [] = (t, m, pins) := by
  cases fuel <;> rfl

theorem seedFrom_self (s : ManagedVertexMap) (r : Nat) (value : Vertex)
    (q : List Edge) : Tree.seedFrom ⟨s, r⟩ value r q = q := by
  unfold Tree.seedFrom
  rw [List.filterMap_eq_nil_iff.mpr, List.append_nil]
  intro e he
  have h1 : e.1 = r := by
    have := (List.mem_filter.mp he).2
    simpa using this
  cases hf1 : ManagedVertexMap.find s e.1 <;>
    cases hf2 : ManagedVertexMap.find s e.2 <;>
    simp [hf1, hf2, h1]

/-- C6.  `update(source, newValue)` always returns `target`, the handle
obtained by inserting `newValue` (its self key), regardless of what the
rebuild loop did; and when `source` is the current root, the call leaves
the tree with `target` installed as the new root and with the old root
released through the root setter (erased from the store, cascading when its
reference count is zero) - the rebuild queue is seeded empty in that case,
so this happens before the call returns. -/
theorem update_returns_target_and_flips_root (t : Tree) (source : Nat)
    (v : Vertex) :
    ((t.update source v).2 = v.self_edge) ∧
    (source = t.root →
      t.update source v =
        (⟨((t.store.insert (v.self_edge, v)).1).erase t.root, v.self_edge⟩,
          v.self_edge)) := by
  constructor
  · rfl
  · intro h
    subst h
    unfold Tree.update
    simp only [seedFrom_self, eq_self_iff_true, if_true, updateLoop_nil,
      List.foldl_nil]
    rfl

theorem update_returns_target_and_flips_root_witness :
    let v9 : Vertex := ⟨9, []⟩
    let t : Tree :=
      ⟨((ManagedVertexMap.mk [] []).insert (v9.self_edge, v9)).1, v9.self_edge⟩
    ((t.update t.root ⟨3, []⟩).2 = (⟨3, []⟩ : Vertex).self_edge) ∧
    (t.update t.root ⟨3, []⟩ =
      (⟨((t.store.insert ((⟨3, []⟩ : Vertex).self_edge, ⟨3, []⟩)).1).erase
          t.root, (⟨3, []⟩ : Vertex).self_edge⟩,
        (⟨3, []⟩ : Vertex).self_edge)) := by
  intro v9 t
  exact ⟨(update_returns_target_and_flips_root t t.root ⟨3, []⟩).1,
    (update_returns_target_and_flips_root t t.root ⟨3, []⟩).2 rfl⟩

/-! ### Claim theorems: the insertChild scenario (C2), garbage freedom
(C3) and update idempotence (C7) -/

theorem reaches_of_dangling (s : ManagedVertexMap) (a c : Nat)
    (hfind : s.find a = none) (h : Reaches s a c) : c = a := by
  cases h
  case refl => rfl
  case step =>
    rename_i b v hmem hfa hr
    rw [hfind] at hfa
    cases hfa

/-- C2.  The spec scenario fails on the code under the spec's key model
(caller-assigned keys; a replacement shares its predecessor's key during
reinsertion, because the rewrite step copies the old vertex): running
`insertChild(D, newLeaf E)` over the scenario store, every rebuild
reinserts under an occupied key, which the vertex map silently ignores
while the reference edges are appended again.  The returned target handle
is old `D`'s key and the vertex stored there still has no children - no
`D-rebuilt` containing `E` exists; `B` still lists old `D` - no
`B-rebuilt` exists; the root setter erases root `A` (reference count
zero), so the root handle dangles instead of naming an `A-rebuilt`; the
reference edge `(D, B)` is duplicated; and `E`, though stored, is listed
as child by no stored vertex.  Old `D` and `B` are not collected.  None of
the claim's rebuilt chain materializes. -/
theorem insert_child_key_reuse_divergence :
    (kScenarioResult.2 = 3) ∧
    (kScenarioResult.1.store.find 3 = some ⟨3, []⟩) ∧
    (kScenarioResult.1.store.find 1 = some ⟨1, [3]⟩) ∧
    (kScenarioResult.1.root = 0 ∧
      kScenarioResult.1.store.find kScenarioResult.1.root = none) ∧
    (kScenarioResult.1.store.find 4 = some ⟨4, []⟩) ∧
    (∀ p ∈ kScenarioResult.1.store.vertices, 4 ∉ p.2.children) ∧
    (kScenarioResult.1.store.edges.count ((3, 1) : Edge) = 2) := by
  decide

/-- C3.  Garbage freedom fails on the code: updating the root of the tree
`B -> D` with `B`'s own stored value is a root replacement (the root setter
runs and releases the superseded root), after which the vertex `D` remains
stored while the live root handle no longer resolves to any stored vertex,
so `D` is reachable from no live root.  (The root setter erases the
superseded root even when it is also the incoming root, because `insert` of
an occupied key left the old vertex in place.) -/
theorem root_replacement_leaves_unreachable_vertex :
    (pairTree.store.find vB.self_edge = some vB) ∧
    (pairIdentityResult.1.store.find vD.self_edge = some vD) ∧
    (pairIdentityResult.1.store.find pairIdentityResult.1.root = none) ∧
    ¬ Reaches pairIdentityResult.1.store pairIdentityResult.1.root
      vD.self_edge := by
  refine ⟨by decide, by decide, by decide, ?_⟩
  intro h
  have := reaches_of_dangling _ _ _ (by decide) h
  revert this
  decide

/-- C7.  Update idempotence on identity fails on the code: updating the
root of a one-vertex tree with exactly the vertex value already stored
there erases the root vertex from the store (the occupied-key insert is a
no-op, the root setter then installs the same handle and erases it), so
the state after the call is not equal by reachable structure to the state
before - the store is empty and the root handle dangles. -/
theorem update_identity_erases_root :
    (leafTree.store.find leafTree.root = some vLeaf8) ∧
    (leafIdentityResult.1.store.vertices = []) ∧
    (leafIdentityResult.1.store.find leafIdentityResult.1.root = none) := by
  decide

/-! ### Store-invariant helper lemmas -/

theorem filter_erase_of_neg {α : Type} [BEq α] [LawfulBEq α]
    (p : α → Bool) (a : α) (l : List α) (h : p a = false) :
    (l.erase a).filter p = l.filter p := by
  induction l with
  | nil => rfl
  | cons hd tl ih =>
    by_cases hh : hd = a
    · subst hh
      rw [List.erase_cons_head, List.filter_cons]
      simp [h]
    · rw [List.erase_cons_tail (by simpa using hh), List.filter_cons,
        List.filter_cons]
      cases hp : p hd <;> simp [hp, ih]

theorem count_le_countChild (edges : List Edge) (e : Edge) :
    edges.count e ≤ (edges.filter (fun x => x.1 == e.1)).length := by
  rw [List.count_eq_countP, ← List.countP_eq_length_filter]
  apply List.countP_mono_left
  intro a _ hae
  have : a = e := by simpa using hae
  subst this
  simp

theorem find?_eq_of_mem_nodupkeys (verts : List (Nat × Vertex))
    (hK : (verts.map (fun p => p.1)).Nodup) (k : Nat) (v : Vertex)
    (h : (k, v) ∈ verts) :
    verts.find? (fun p => p.1 == k) = some (k, v) := by
  induction verts with
  | nil => cases h
  | cons hd tl ih =>
    rw [List.map_cons, List.nodup_cons] at hK
    cases h with
    | head => simp [List.find?_cons]
    | tail _ hmem =>
      have hne : (hd.1 == k) = false := by
        have : hd.1 ≠ k := by
          intro he
          exact hK.1 (he ▸ List.mem_map_of_mem (fun p => p.1) hmem)
        simpa using this
      rw [List.find?_cons_of_neg _ (by simp [hne])]
      exact ih hK.2 hmem

theorem find_entry_mem {s : ManagedVertexMap} {k : Nat} {v : Vertex}
    (h : s.find k = some v) : (k, v) ∈ s.vertices := by
  unfold ManagedVertexMap.find at h
  cases hf : s.vertices.find? (fun p => p.1 == k) with
  | none => rw [hf] at h; cases h
  | some pv =>
    rw [hf] at h
    have hme := List.mem_of_find?_eq_some hf
    have hk : pv.1 = k := by
      have := List.find?_some hf
      simpa using this
    have hv : pv.2 = v := by simpa using h
    have hpv : pv = (k, v) := by
      cases pv
      simp only at hk hv
      rw [hk, hv]
    rw [hpv] at hme
    exact hme

theorem find_eq_of_mem {s : ManagedVertexMap} (hK : KeysNodup s) {k : Nat}
    {v : Vertex} (h : (k, v) ∈ s.vertices) : s.find k = some v := by
  unfold ManagedVertexMap.find
  rw [find?_eq_of_mem_nodupkeys s.vertices hK k v h]
  rfl

theorem find?_eraseP_ne (verts : List (Nat × Vertex)) (k j : Nat)
    (hne : j ≠ k) :
    (verts.eraseP (fun p => p.1 == k)).find? (fun p => p.1 == j) =
      verts.find? (fun p => p.1 == j) := by
  induction verts with
  | nil => rfl
  | cons hd tl ih =>
    by_cases hk : hd.1 = k
    · rw [List.eraseP_cons_of_pos (by simp [hk])]
      rw [List.find?_cons_of_neg _ (by simp [hk]; omega)]
    · rw [List.eraseP_cons_of_neg (by simp [hk])]
      rw [List.find?_cons, List.find?_cons]
      cases hb : (hd.1 == j) <;> simp [ih]

theorem find?_eraseP_self (verts : List (Nat × Vertex))
    (hK : (verts.map (fun p => p.1)).Nodup) (k : Nat) :
    (verts.eraseP (fun p => p.1 == k)).find? (fun p => p.1 == k) = none := by
  induction verts with
  | nil => rfl
  | cons hd tl ih =>
    rw [List.map_cons, List.nodup_cons] at hK
    by_cases hk : hd.1 = k
    · rw [List.eraseP_cons_of_pos (by simp [hk])]
      rw [List.find?_eq_none]
      intro x hx hpx
      have hxk : x.1 = k := by simpa using hpx
      exact hK.1 (by
        rw [hk, ← hxk]
        exact List.mem_map_of_mem (fun p => p.1) hx)
    · rw [List.eraseP_cons_of_neg (by simp [hk])]
      rw [List.find?_cons_of_neg _ (by simp [hk])]
      exact ih hK.2

theorem vmult_eraseP (verts : List (Nat × Vertex)) (E1 E2 : List Edge)
    (c : Nat) (hK : (verts.map (fun p => p.1)).Nodup) (e : Edge) :
    vmult ⟨verts.eraseP (fun p => p.1 == c), E1⟩ e =
      if e.2 = c then 0 else vmult ⟨verts, E2⟩ e := by
  unfold vmult ManagedVertexMap.find
  by_cases h2 : e.2 = c
  · rw [h2, find?_eraseP_self verts hK c]
    simp [h2]
  · rw [find?_eraseP_ne verts c e.2 h2]
    simp [h2]

theorem count_erase_mem (E : List Edge) (e₀ e : Edge) (hmem : e₀ ∈ E) :
    (E.erase e₀).count e + (if e = e₀ then 1 else 0) = E.count e := by
  by_cases he : e = e₀
  · subst he
    rw [List.count_erase_self]
    have hpos : 0 < E.count e := List.count_pos_iff.mpr hmem
    simp
    omega
  · rw [List.count_erase_of_ne he]
    simp [he]

theorem count_map_pair (children : List Nat) (k : Nat) (e : Edge) :
    (children.map (fun g => (g, k))).count e =
      if e.2 = k then children.count e.1 else 0 := by
  rw [List.count_eq_countP, List.countP_map]
  by_cases h2 : e.2 = k
  · rw [if_pos h2, List.count_eq_countP]
    apply List.countP_congr
    intro g _
    show ((g, k) == e) = true ↔ (g == e.1) = true
    cases e with
    | mk e1 e2 =>
      simp only at h2
      subst h2
      simp
  · rw [if_neg h2]
    apply List.countP_eq_zero.mpr
    intro g _
    intro hbeq
    have hge : (g, k) = e := eq_of_beq (by simpa using hbeq)
    exact h2 (by rw [← hge])

open ManagedVertexMap

theorem vmult_eq {s : ManagedVertexMap} {e : Edge} {v : Vertex}
    (h : s.find e.2 = some v) : vmult s e = v.children.count e.1 := by
  unfold vmult
  rw [h]

theorem vmult_eq_zero {s : ManagedVertexMap} {e : Edge}
    (h : s.find e.2 = none) : vmult s e = 0 := by
  unfold vmult
  rw [h]

theorem count_cons_prop (e0 e : Edge) (l : List Edge) :
    (e0 :: l).count e = l.count e + (if e = e0 then 1 else 0) := by
  by_cases h : e = e0 <;> simp [List.count_cons, h]

theorem keysNodup_eraseP (s : ManagedVertexMap) (c : Nat)
    (hK : KeysNodup s) (E1 : List Edge) :
    KeysNodup ⟨s.vertices.eraseP (fun p => p.1 == c), E1⟩ :=
  hK.sublist ((List.eraseP_sublist _).map _)

/-- The cascading loop in the orphan regime: every queued edge has a dead
parent (its vertex-induced multiplicity is zero), the vertex `k` being
erased by the caller is referenced by nobody, and the edge multiset equals
the vertex-induced multiset minus the already-processed debt `D` plus the
pending queue.  The loop preserves all of this and drains the queue. -/
theorem eraseEdgeLoopGo_orphan_inv (k : Nat) (v0 : Vertex) :
    ∀ (n : Nat) (s : ManagedVertexMap) (q D : List Edge),
      loopMeasure s q ≤ n →
      KeysNodup s →
      DupFree s →
      s.find k = some v0 →
      (∀ p ∈ s.vertices, k ∉ p.2.children) →
      (∀ e ∈ q, e.1 ≠ k) →
      (∀ e ∈ q, vmult s e = 0) →
      (∀ e ∈ D, e.2 = k ∧ e.1 ∈ v0.children) →
      (∀ e : Edge, s.edges.count e + D.count e = vmult s e + q.count e) →
      KeysNodup (eraseEdgeLoopGo n s q) ∧
      DupFree (eraseEdgeLoopGo n s q) ∧
      (eraseEdgeLoopGo n s q).find k = some v0 ∧
      (∀ p ∈ (eraseEdgeLoopGo n s q).vertices, k ∉ p.2.children) ∧
      (∀ e : Edge, (eraseEdgeLoopGo n s q).edges.count e + D.count e =
        vmult (eraseEdgeLoopGo n s q) e) := by
  intro n
  induction n with
  | zero =>
    intro s q D hmeas hK hD hfk hnok hq1 hq0 hDp hbal
    have hq : q = [] := by
      cases q with
      | nil => rfl
      | cons e rest => rw [loopMeasure_cons] at hmeas; omega
    subst hq
    rw [eraseEdgeLoopGo_zero]
    refine ⟨hK, hD, hfk, hnok, fun e => by simpa using hbal e⟩
  | succ n ih =>
    intro s q D hmeas hK hD hfk hnok hq1 hq0 hDp hbal
    cases q with
    | nil =>
      rw [eraseEdgeLoopGo_nil]
      refine ⟨hK, hD, hfk, hnok, fun e => by simpa using hbal e⟩
    | cons e0 rest =>
      have he0q1 : e0.1 ≠ k := hq1 e0 (List.mem_cons_self _ _)
      have he0v : vmult s e0 = 0 := hq0 e0 (List.mem_cons_self _ _)
      have he0D : D.count e0 = 0 := by
        rw [List.count_eq_zero]
        intro hmem
        obtain ⟨h2, h1⟩ := hDp e0 hmem
        have hv : vmult s e0 = v0.children.count e0.1 :=
          vmult_eq (by rw [h2]; exact hfk)
        rw [he0v] at hv
        exact (List.count_eq_zero.mp hv.symm) h1
      have he0E : s.edges.count e0 = rest.count e0 + 1 := by
        have := hbal e0
        rw [count_cons_prop, if_pos rfl, he0v, he0D] at this
        omega
      have he0mem : e0 ∈ s.edges :=
        List.count_pos_iff.mp (by omega)
      rw [eraseEdgeLoopGo]
      by_cases hχ :
          ((s.edges.erase e0).filter (fun p => p.1 == e0.1)).length = 0
      · rw [if_pos hχ]
        cases hfind : s.vertices.find? (fun p => p.1 == e0.1) with
        | some pv =>
          have hpc : pv.1 = e0.1 := by
            have := List.find?_some hfind
            simpa using this
          have hpvmem : pv ∈ s.vertices := List.mem_of_find?_eq_some hfind
          have hfc : s.find e0.1 = some pv.2 := by
            unfold ManagedVertexMap.find
            rw [hfind]
            rfl
          have hkc : k ≠ e0.1 := fun h => he0q1 h.symm
          apply ih
          · have hme := loopMeasure_erase_branch s e0 rest hfind
            have hc := loopMeasure_cons s e0 rest
            omega
          · exact keysNodup_eraseP s e0.1 hK _
          · intro p hp
            exact hD p (List.mem_of_mem_eraseP hp)
          · show ManagedVertexMap.find _ k = some v0
            unfold ManagedVertexMap.find
            rw [find?_eraseP_ne s.vertices e0.1 k hkc]
            exact hfk
          · intro p hp
            exact hnok p (List.mem_of_mem_eraseP hp)
          · intro e he
            rcases List.mem_append.mp he with hr | hm
            · exact hq1 e (List.mem_cons_of_mem _ hr)
            · obtain ⟨g, hg, rfl⟩ := List.mem_map.mp hm
              intro hgk
              exact (hnok pv hpvmem) (by rw [← hgk]; exact hg)
          · intro e he
            rcases List.mem_append.mp he with hr | hm
            · rw [vmult_eraseP s.vertices _ s.edges e0.1 hK e]
              by_cases h2 : e.2 = e0.1
              · simp [h2]
              · rw [if_neg h2]
                exact hq0 e (List.mem_cons_of_mem _ hr)
            · obtain ⟨g, hg, rfl⟩ := List.mem_map.mp hm
              rw [vmult_eraseP s.vertices _ s.edges e0.1 hK _]
              simp
          · exact hDp
          · intro e
            have hbe := hbal e
            rw [count_cons_prop] at hbe
            have her := count_erase_mem s.edges e0 e he0mem
            have hproj : (⟨s.vertices.eraseP (fun p => p.1 == e0.1),
                s.edges.erase e0⟩ : ManagedVertexMap).edges =
                s.edges.erase e0 := rfl
            rw [hproj, List.count_append]
            rw [count_map_pair pv.2.children e0.1 e]
            rw [vmult_eraseP s.vertices _ s.edges e0.1 hK e]
            by_cases h2 : e.2 = e0.1
            · rw [if_pos h2, if_pos h2]
              have hve : vmult s e = pv.2.children.count e.1 :=
                vmult_eq (by rw [h2]; exact hfc)
              by_cases he : e = e0
              · rw [if_pos he] at hbe her
                subst he
                omega
              · rw [if_neg he] at hbe her
                omega
            · rw [if_neg h2, if_neg h2]
              have hve : vmult ⟨s.vertices, s.edges⟩ e = vmult s e := rfl
              by_cases he : e = e0
              · rw [if_pos he] at hbe her
                subst he
                rw [he0v] at hbe
                omega
              · rw [if_neg he] at hbe her
                omega
        | none =>
          apply ih
          · rw [loopMeasure_cons] at hmeas
            have : loopMeasure ⟨s.vertices, s.edges.erase e0⟩ rest =
                loopMeasure s rest := rfl
            omega
          · exact hK
          · exact hD
          · exact hfk
          · exact hnok
          · exact fun e he => hq1 e (List.mem_cons_of_mem _ he)
          · exact fun e he => hq0 e (List.mem_cons_of_mem _ he)
          · exact hDp
          · intro e
            have hbe := hbal e
            rw [count_cons_prop] at hbe
            have her := count_erase_mem s.edges e0 e he0mem
            have hproj : (⟨s.vertices, s.edges.erase e0⟩ :
                ManagedVertexMap).edges = s.edges.erase e0 := rfl
            have hvm : vmult ⟨s.vertices, s.edges.erase e0⟩ e =
                vmult s e := rfl
            rw [hproj, hvm]
            by_cases he : e = e0
            · rw [if_pos he] at hbe her
              subst he
              omega
            · rw [if_neg he] at hbe her
              omega
      · rw [if_neg hχ]
        apply ih
        · rw [loopMeasure_cons] at hmeas
          have : loopMeasure ⟨s.vertices, s.edges.erase e0⟩ rest =
              loopMeasure s rest := rfl
          omega
        · exact hK
        · exact hD
        · exact hfk
        · exact hnok
        · exact fun e he => hq1 e (List.mem_cons_of_mem _ he)
        · exact fun e he => hq0 e (List.mem_cons_of_mem _ he)
        · exact hDp
        · intro e
          have hbe := hbal e
          rw [count_cons_prop] at hbe
          have her := count_erase_mem s.edges e0 e he0mem
          have hproj : (⟨s.vertices, s.edges.erase e0⟩ :
              ManagedVertexMap).edges = s.edges.erase e0 := rfl
          have hvm : vmult ⟨s.vertices, s.edges.erase e0⟩ e =
              vmult s e := rfl
          rw [hproj, hvm]
          by_cases he : e = e0
          · rw [if_pos he] at hbe her
            subst he
            omega
          · rw [if_neg he] at hbe her
            omega

theorem eraseEdge_child_step (k : Nat) (v0 : Vertex) (c : Nat)
    (s : ManagedVertexMap) (D : List Edge)
    (hK : KeysNodup s) (hD : DupFree s)
    (hfk : s.find k = some v0)
    (hnok : ∀ p ∈ s.vertices, k ∉ p.2.children)
    (hDp : ∀ e ∈ D, e.2 = k ∧ e.1 ∈ v0.children)
    (hbal : ∀ e : Edge, s.edges.count e + D.count e = vmult s e)
    (hDc : D.count ((c, k) : Edge) + 1 ≤ v0.children.count c) :
    KeysNodup (s.eraseEdge (c, k)) ∧
    DupFree (s.eraseEdge (c, k)) ∧
    (s.eraseEdge (c, k)).find k = some v0 ∧
    (∀ p ∈ (s.eraseEdge (c, k)).vertices, k ∉ p.2.children) ∧
    (∀ e : Edge, (s.eraseEdge (c, k)).edges.count e +
      (D ++ [((c, k) : Edge)]).count e = vmult (s.eraseEdge (c, k)) e) := by
  have hvc : vmult s ((c, k) : Edge) = v0.children.count c :=
    vmult_eq (show s.find ((c, k) : Edge).2 = some v0 from hfk)
  have hE : s.edges.count ((c, k) : Edge) +
      D.count ((c, k) : Edge) = v0.children.count c := by
    rw [← hvc]
    exact hbal _
  have hmem : ((c, k) : Edge) ∈ s.edges :=
    List.count_pos_iff.mp (by omega)
  have hcmem : c ∈ v0.children :=
    List.count_pos_iff.mp (by omega)
  have hck : c ≠ k := by
    intro h
    exact hnok (k, v0) (find_entry_mem hfk) (h ▸ hcmem)
  have hsingle : ∀ e : Edge, ([((c, k) : Edge)]).count e =
      if e = ((c, k) : Edge) then 1 else 0 := by
    intro e
    by_cases h : e = ((c, k) : Edge) <;> simp [h]
  show KeysNodup (s.eraseEdge (c, k)) ∧ _
  unfold ManagedVertexMap.eraseEdge
  rw [if_pos (by simpa using hmem)]
  by_cases hχ : ((s.edges.erase ((c, k) : Edge)).filter
      (fun p => p.1 == ((c, k) : Edge).1)).length = 0
  · cases hfind : s.vertices.find?
        (fun p => p.1 == ((c, k) : Edge).1) with
    | some pv =>
      rw [eraseEdgeLoop_cons_erase s ((c, k) : Edge) [] hχ hfind]
      have hpc : pv.1 = c := by
        have := List.find?_some hfind
        simpa using this
      have hpvmem : pv ∈ s.vertices := List.mem_of_find?_eq_some hfind
      have hfc : s.find c = some pv.2 := by
        unfold ManagedVertexMap.find
        rw [show (fun (p : Nat × Vertex) => p.1 == c) =
          (fun (p : Nat × Vertex) => p.1 == ((c, k) : Edge).1) from rfl]
        rw [hfind]
        rfl
      apply eraseEdgeLoopGo_orphan_inv k v0
      · exact Nat.le_refl _
      · exact keysNodup_eraseP s _ hK _
      · intro p hp
        exact hD p (List.mem_of_mem_eraseP hp)
      · show ManagedVertexMap.find _ k = some v0
        unfold ManagedVertexMap.find
        rw [find?_eraseP_ne s.vertices _ k (fun h => hck h.symm)]
        exact hfk
      · intro p hp
        exact hnok p (List.mem_of_mem_eraseP hp)
      · intro e he
        rw [List.nil_append] at he
        obtain ⟨g, hg, rfl⟩ := List.mem_map.mp he
        intro hgk
        exact (hnok pv hpvmem) (by rw [← hgk]; exact hg)
      · intro e he
        rw [List.nil_append] at he
        obtain ⟨g, hg, rfl⟩ := List.mem_map.mp he
        rw [vmult_eraseP s.vertices _ s.edges _ hK _]
        simp
      · intro e he
        rcases List.mem_append.mp he with hd | hs
        · exact hDp e hd
        · have : e = ((c, k) : Edge) := by simpa using hs
          subst this
          exact ⟨rfl, hcmem⟩
      · intro e
        have hbe := hbal e
        have her := count_erase_mem s.edges ((c, k) : Edge) e hmem
        have hproj : (⟨s.vertices.eraseP
            (fun p => p.1 == ((c, k) : Edge).1),
            s.edges.erase ((c, k) : Edge)⟩ :
            ManagedVertexMap).edges = s.edges.erase ((c, k) : Edge) := rfl
        rw [hproj, List.count_append, hsingle e, List.nil_append]
        rw [count_map_pair pv.2.children ((c, k) : Edge).1 e]
        rw [vmult_eraseP s.vertices _ s.edges _ hK e]
        have hvmeta : vmult (⟨s.vertices, s.edges⟩ : ManagedVertexMap) e =
            vmult s e := rfl
        rw [hvmeta]
        by_cases h2 : e.2 = ((c, k) : Edge).1
        · rw [if_pos h2, if_pos h2]
          have hve : vmult s e = pv.2.children.count e.1 :=
            vmult_eq (by rw [h2]; exact hfc)
          have hne : ¬ e = ((c, k) : Edge) := by
            intro h
            rw [h] at h2
            exact hck (by simpa using h2.symm)
          rw [if_neg hne] at her ⊢
          omega
        · rw [if_neg h2, if_neg h2]
          by_cases he : e = ((c, k) : Edge)
          · rw [if_pos he] at her ⊢
            subst he
            omega
          · rw [if_neg he] at her ⊢
            omega
    | none =>
      rw [eraseEdgeLoop_cons_absent s ((c, k) : Edge) [] hχ hfind,
        eraseEdgeLoop_nil]
      refine ⟨hK, hD, hfk, hnok, ?_⟩
      intro e
      have hbe := hbal e
      have her := count_erase_mem s.edges ((c, k) : Edge) e hmem
      show (s.edges.erase ((c, k) : Edge)).count e +
        (D ++ [((c, k) : Edge)]).count e = vmult s e
      rw [List.count_append, hsingle e]
      by_cases he : e = ((c, k) : Edge)
      · rw [if_pos he] at her ⊢
        subst he
        omega
      · rw [if_neg he] at her ⊢
        omega
  · rw [eraseEdgeLoop_cons_live s ((c, k) : Edge) [] hχ, eraseEdgeLoop_nil]
    refine ⟨hK, hD, hfk, hnok, ?_⟩
    intro e
    have hbe := hbal e
    have her := count_erase_mem s.edges ((c, k) : Edge) e hmem
    show (s.edges.erase ((c, k) : Edge)).count e +
      (D ++ [((c, k) : Edge)]).count e = vmult s e
    rw [List.count_append, hsingle e]
    by_cases he : e = ((c, k) : Edge)
    · rw [if_pos he] at her ⊢
      subst he
      omega
    · rw [if_neg he] at her ⊢
      omega

theorem erase_children_fold (k : Nat) (v0 : Vertex) :
    ∀ (cs : List Nat) (s : ManagedVertexMap) (D : List Edge),
      KeysNodup s → DupFree s → s.find k = some v0 →
      (∀ p ∈ s.vertices, k ∉ p.2.children) →
      (∀ e ∈ D, e.2 = k ∧ e.1 ∈ v0.children) →
      (∀ e : Edge, s.edges.count e + D.count e = vmult s e) →
      (∀ c : Nat, D.count ((c, k) : Edge) + cs.count c ≤
        v0.children.count c) →
      KeysNodup (cs.foldl (fun st c => st.eraseEdge (c, k)) s) ∧
      DupFree (cs.foldl (fun st c => st.eraseEdge (c, k)) s) ∧
      (cs.foldl (fun st c => st.eraseEdge (c, k)) s).find k = some v0 ∧
      (∀ p ∈ (cs.foldl (fun st c => st.eraseEdge (c, k)) s).vertices,
        k ∉ p.2.children) ∧
      (∀ e : Edge,
        (cs.foldl (fun st c => st.eraseEdge (c, k)) s).edges.count e +
          (D ++ cs.map (fun c => ((c, k) : Edge))).count e =
          vmult (cs.foldl (fun st c => st.eraseEdge (c, k)) s) e) := by
  intro cs
  induction cs with
  | nil =>
    intro s D hK hD hfk hnok hDp hbal hcnt
    exact ⟨hK, hD, hfk, hnok, fun e => by simpa using hbal e⟩
  | cons c cs ih =>
    intro s D hK hD hfk hnok hDp hbal hcnt
    have hDc : D.count ((c, k) : Edge) + 1 ≤ v0.children.count c := by
      have h1 := hcnt c
      have h2 : (c :: cs).count c = cs.count c + 1 := by
        simp [List.count_cons]
      omega
    have hstep := eraseEdge_child_step k v0 c s D hK hD hfk hnok hDp hbal hDc
    have hcmem : c ∈ v0.children := List.count_pos_iff.mp (by omega)
    have hres := ih (s.eraseEdge (c, k)) (D ++ [((c, k) : Edge)])
      hstep.1 hstep.2.1 hstep.2.2.1 hstep.2.2.2.1 ?_ hstep.2.2.2.2 ?_
    · rw [List.foldl_cons]
      refine ⟨hres.1, hres.2.1, hres.2.2.1, hres.2.2.2.1, ?_⟩
      intro e
      have hb := hres.2.2.2.2 e
      have hcnt2 : (D ++ [((c, k) : Edge)] ++
          cs.map (fun g => ((g, k) : Edge))).count e =
          (D ++ (c :: cs).map (fun g => ((g, k) : Edge))).count e := by
        simp [List.count_append, List.count_cons]
      rw [← hcnt2]
      exact hb
    · intro e he
      rcases List.mem_append.mp he with hd | hs
      · exact hDp e hd
      · have : e = ((c, k) : Edge) := by simpa using hs
        subst this
        exact ⟨rfl, hcmem⟩
    · intro g
      have h1 := hcnt g
      have h2 : (c :: cs).count g = cs.count g +
          (if g = c then 1 else 0) := by
        by_cases h : g = c <;> simp [List.count_cons, h]
      have h3 : (D ++ [((c, k) : Edge)]).count ((g, k) : Edge) =
          D.count ((g, k) : Edge) + (if g = c then 1 else 0) := by
        rw [List.count_append]
        by_cases h : g = c <;> simp [h]
      omega

theorem nobody_lists (s : ManagedVertexMap) (hM : EdgesMatch s)
    (hK : KeysNodup s) (k : Nat) (hc : s.count k = 0) :
    ∀ p ∈ s.vertices, k ∉ p.2.children := by
  intro p hp hkc
  have hfp : s.find p.1 = some p.2 := find_eq_of_mem hK (by
    cases p
    exact hp)
  have hv : vmult s ((k, p.1) : Edge) = p.2.children.count k := vmult_eq hfp
  have hpos : 0 < s.edges.count ((k, p.1) : Edge) := by
    rw [hM, hv]
    exact List.count_pos_iff.mpr hkc
  have hle := count_le_countChild s.edges ((k, p.1) : Edge)
  have hcc : (s.edges.filter
      (fun x => x.1 == ((k, p.1) : Edge).1)).length = s.count k := rfl
  omega

theorem erase_preserves_inv (s : ManagedVertexMap) (k : Nat) (hI : Inv s) :
    Inv (s.erase k) := by
  obtain ⟨hM, hD, hK⟩ := hI
  unfold ManagedVertexMap.erase
  cases hf : s.find k with
  | none => exact ⟨hM, hD, hK⟩
  | some v =>
    show Inv (if s.count k = 0 then
      ⟨(v.children.foldl (fun st c => st.eraseEdge (c, k)) s).vertices.eraseP
        (fun p => p.1 == k),
       (v.children.foldl (fun st c => st.eraseEdge (c, k)) s).edges⟩ else s)
    by_cases hc : s.count k = 0
    · rw [if_pos hc]
      have hnok := nobody_lists s hM hK k hc
      have hfold := erase_children_fold k v v.children s [] hK hD hf hnok
        (by intro e he; cases he)
        (fun e => by simpa using hM e)
        (fun c => by simp)
      refine ⟨?_, ?_, ?_⟩
      · intro e
        have hbal := hfold.2.2.2.2 e
        rw [List.nil_append, count_map_pair v.children k e] at hbal
        have hKf := hfold.1
        show (v.children.foldl (fun st c => st.eraseEdge (c, k))
            s).edges.count e =
          vmult ⟨((v.children.foldl (fun st c => st.eraseEdge (c, k))
              s).vertices).eraseP (fun p => p.1 == k),
            (v.children.foldl (fun st c => st.eraseEdge (c, k))
              s).edges⟩ e
        rw [vmult_eraseP _ _ (v.children.foldl
          (fun st c => st.eraseEdge (c, k)) s).edges k hKf e]
        have hvs2 : vmult (⟨(v.children.foldl
            (fun st c => st.eraseEdge (c, k)) s).vertices,
            (v.children.foldl
            (fun st c => st.eraseEdge (c, k)) s).edges⟩ :
            ManagedVertexMap) e =
            vmult (v.children.foldl
            (fun st c => st.eraseEdge (c, k)) s) e := rfl
        rw [hvs2]
        by_cases h2 : e.2 = k
        · rw [if_pos h2]
          rw [if_pos h2] at hbal
          have hvv : vmult (v.children.foldl
              (fun st c => st.eraseEdge (c, k)) s) e =
              v.children.count e.1 := vmult_eq (by rw [h2]; exact hfold.2.2.1)
          omega
        · rw [if_neg h2]
          rw [if_neg h2] at hbal
          omega
      · intro p hp
        exact hfold.2.1 p (List.mem_of_mem_eraseP hp)
      · exact hfold.1.sublist ((List.eraseP_sublist _).map _)
    · rw [if_neg hc]
      exact ⟨hM, hD, hK⟩

theorem insert_preserves_inv (s : ManagedVertexMap) (k : Nat) (v : Vertex)
    (hI : Inv s) (hfresh : s.find k = none) (hdup : v.children.Nodup) :
    Inv (s.insert (k, v)).1 := by
  obtain ⟨hM, hD, hK⟩ := hI
  have hfr : s.vertices.find? (fun p => p.1 == k) = none := by
    unfold ManagedVertexMap.find at hfresh
    cases hf : s.vertices.find? (fun p => p.1 == k) with
    | none => rfl
    | some pv => rw [hf] at hfresh; cases hfresh
  have hres : (s.insert (k, v)).1 =
      ⟨s.vertices ++ [(k, v)], s.edges ++
        v.children.map (fun c => (c, k))⟩ := by
    unfold ManagedVertexMap.insert
    rw [hfr]
    rfl
  rw [hres]
  have hknot : ∀ p ∈ s.vertices, p.1 ≠ k := by
    intro p hp h
    have h2 := List.find?_eq_none.mp hfr p hp
    exact h2 (by simp [h])
  refine ⟨?_, ?_, ?_⟩
  · intro e
    show (s.edges ++ v.children.map (fun c => (c, k))).count e = _
    rw [List.count_append, count_map_pair v.children k e]
    by_cases h2 : e.2 = k
    · rw [if_pos h2]
      have hnone : s.vertices.find? (fun p => p.1 == e.2) = none := by
        rw [h2]
        exact hfr
      have hone : ([((k, v) : Nat × Vertex)]).find?
          (fun p => p.1 == e.2) = some (k, v) := by
        rw [h2]
        simp [List.find?]
      have hz : s.edges.count e = 0 := by
        rw [hM e]
        apply vmult_eq_zero
        unfold ManagedVertexMap.find
        rw [hnone]
        rfl
      rw [hz, Nat.zero_add]
      unfold vmult ManagedVertexMap.find
      rw [List.find?_append, hnone, hone]
      rfl
    · rw [if_neg h2]
      have hone : ([((k, v) : Nat × Vertex)]).find?
          (fun p => p.1 == e.2) = none := by
        simp only [List.find?]
        have : (k == e.2) = false := by
          simp
          exact fun h => h2 h.symm
        rw [this]
      have hMe := hM e
      unfold vmult ManagedVertexMap.find at hMe ⊢
      rw [List.find?_append, hone, Option.or_none, Nat.add_zero]
      exact hMe
  · intro p hp
    rcases List.mem_append.mp hp with h1 | h2
    · exact hD p h1
    · have : p = (k, v) := by simpa using h2
      rw [this]
      exact hdup
  · show ((s.vertices ++ [(k, v)]).map (fun p => p.1)).Nodup
    rw [List.map_append]
    rw [List.nodup_append]
    refine ⟨hK, by simp, ?_⟩
    intro a ha
    simp only [List.map_cons, List.map_nil, List.mem_singleton]
    obtain ⟨p, hp, rfl⟩ := List.mem_map.mp ha
    simp
    exact hknot p hp

theorem storeReachable_inv (s : ManagedVertexMap) (h : StoreReachable s) :
    Inv s := by
  induction h with
  | empty =>
    refine ⟨fun e => rfl, ?_, ?_⟩
    · intro p hp
      cases hp
    · exact List.nodup_nil
  | insert s k v hs hfresh hdup ih => exact insert_preserves_inv s k v ih hfresh hdup
  | erase s k hs ih => exact erase_preserves_inv s k ih

theorem count_vertexEdges (verts : List (Nat × Vertex))
    (hK : (verts.map (fun p => p.1)).Nodup) (e : Edge) :
    (vertexEdges verts).count e = vmult ⟨verts, []⟩ e := by
  induction verts with
  | nil => rfl
  | cons hd tl ih =>
    rw [List.map_cons, List.nodup_cons] at hK
    have hsplit : vertexEdges (hd :: tl) =
        hd.2.children.map (fun c => (c, hd.1)) ++ vertexEdges tl := rfl
    rw [hsplit, List.count_append, count_map_pair hd.2.children hd.1 e,
      ih hK.2]
    unfold vmult ManagedVertexMap.find
    by_cases h2 : e.2 = hd.1
    · rw [if_pos h2]
      have hhd : ((hd :: tl).find? (fun p => p.1 == e.2)) = some hd := by
        rw [List.find?_cons_of_pos _ (by simp [h2])]
      have htl : tl.find? (fun p => p.1 == e.2) = none := by
        rw [List.find?_eq_none]
        intro x hx hpx
        apply hK.1
        have : x.1 = e.2 := by simpa using hpx
        rw [← h2, ← this]
        exact List.mem_map_of_mem (fun p => p.1) hx
      rw [hhd, htl]
      rfl
    · rw [if_neg h2]
      have hhd : ((hd :: tl).find? (fun p => p.1 == e.2)) =
          tl.find? (fun p => p.1 == e.2) := by
        rw [List.find?_cons_of_neg _ (by simp; exact fun h => h2 h.symm)]
      rw [hhd, Nat.zero_add]

theorem filter_vertexEdges_length (verts : List (Nat × Vertex))
    (hD : ∀ p ∈ verts, p.2.children.Nodup) (k : Nat) :
    ((vertexEdges verts).filter (fun e => e.1 == k)).length =
      (verts.filter (fun p => p.2.children.contains k)).length := by
  induction verts with
  | nil => rfl
  | cons hd tl ih =>
    have hsplit : vertexEdges (hd :: tl) =
        hd.2.children.map (fun c => (c, hd.1)) ++ vertexEdges tl := rfl
    rw [hsplit, List.filter_append, List.length_append,
      ih (fun p hp => hD p (List.mem_cons_of_mem _ hp))]
    rw [List.filter_cons]
    have hhead : ((hd.2.children.map (fun c => (c, hd.1))).filter
        (fun e => e.1 == k)).length = hd.2.children.count k := by
      rw [List.filter_map]
      rw [List.length_map]
      rw [List.count_eq_countP, List.countP_eq_length_filter]
      rfl
    rw [hhead]
    by_cases hmem : k ∈ hd.2.children
    · have : hd.2.children.contains k = true := by simpa using hmem
      rw [if_pos this]
      rw [List.count_eq_one_of_mem (hD hd (List.mem_cons_self _ _)) hmem]
      simp [Nat.add_comm]
    · have : ¬ hd.2.children.contains k = true := by simpa using hmem
      rw [if_neg this]
      rw [List.count_eq_zero_of_not_mem hmem]
      simp

theorem length_filter_erase (p : Edge → Bool) (e : Edge) :
    ∀ (l : List Edge), e ∈ l →
      ((l.erase e).filter p).length + (if p e then 1 else 0) =
        (l.filter p).length := by
  intro l
  induction l with
  | nil => intro h; cases h
  | cons hd tl ih =>
    intro hmem
    by_cases hh : hd = e
    · subst hh
      rw [List.erase_cons_head, List.filter_cons]
      by_cases hp : p hd
      · simp [hp, Nat.add_comm]
      · simp [hp]
    · have hmem2 : e ∈ tl := by
        cases hmem with
        | head => exact absurd rfl hh
        | tail _ h => exact h
      rw [List.erase_cons_tail (by simpa using hh), List.filter_cons,
        List.filter_cons]
      by_cases hp : p hd
      · rw [if_pos hp, if_pos hp, List.length_cons, List.length_cons]
        have := ih hmem2
        omega
      · rw [if_neg hp, if_neg hp]
        exact ih hmem2

theorem length_filter_eq_of_count_eq (p : Edge → Bool) :
    ∀ (n : Nat) (l₁ l₂ : List Edge), l₁.length ≤ n →
      (∀ e : Edge, l₁.count e = l₂.count e) →
      (l₁.filter p).length = (l₂.filter p).length := by
  intro n
  induction n with
  | zero =>
    intro l₁ l₂ hlen hcnt
    have h1 : l₁ = [] := List.length_eq_zero.mp (by omega)
    subst h1
    have h2 : l₂ = [] := by
      cases hl : l₂ with
      | nil => rfl
      | cons e tl =>
        have := hcnt e
        rw [hl, count_cons_prop, if_pos rfl] at this
        simp at this
    subst h2
    rfl
  | succ n ih =>
    intro l₁ l₂ hlen hcnt
    cases l₁ with
    | nil =>
      have h2 : l₂ = [] := by
        cases hl : l₂ with
        | nil => rfl
        | cons e tl =>
          have := hcnt e
          rw [hl, count_cons_prop, if_pos rfl] at this
          simp at this
      subst h2
      rfl
    | cons e l₁ =>
      have hmem : e ∈ l₂ := by
        apply List.count_pos_iff.mp
        have := hcnt e
        rw [count_cons_prop, if_pos rfl] at this
        omega
      have hcnt2 : ∀ x : Edge, l₁.count x = (l₂.erase e).count x := by
        intro x
        have hc := hcnt x
        rw [count_cons_prop] at hc
        have her := count_erase_mem l₂ e x hmem
        omega
      have hih := ih l₁ (l₂.erase e)
        (by rw [List.length_cons] at hlen; omega) hcnt2
      have hkey := length_filter_erase p e l₂ hmem
      rw [List.filter_cons]
      by_cases hp : p e
      · rw [if_pos hp] at hkey
        simp only [hp, if_pos]
        rw [List.length_cons]
        omega
      · rw [if_neg hp] at hkey
        simp only [hp]
        rw [if_neg (by simpa using hp)]
        omega

theorem count_eq_parentsContaining (s : ManagedVertexMap) (hI : Inv s)
    (k : Nat) : s.count k = parentsContaining s k := by
  obtain ⟨hM, hD, hK⟩ := hI
  show (s.edges.filter (fun e => e.1 == k)).length = _
  rw [length_filter_eq_of_count_eq (fun e => e.1 == k) s.edges.length
    s.edges (vertexEdges s.vertices) (Nat.le_refl _)
    (fun e => by rw [hM e, count_vertexEdges s.vertices hK e]; rfl)]
  exact filter_vertexEdges_length s.vertices hD k

/-! ### Claim theorems: refcount integrity (C1) -/

/-- C1 (amended).  Refcount integrity: in every store state reachable from
the empty store by the public operations honouring their documented
preconditions - `insert` of a vertex whose key is not yet occupied and
whose child list is duplicate-free, and `erase` of a vertex position -
`referenceCount(K)` equals, for every key `K`, the number of distinct
stored parent vertices whose child list contains `K`.  (Re-inserting an
occupied key, which the code accepts silently, breaks the equality - see
the counterexample - so the claim is restricted to the fresh-key
discipline.) -/
theorem refcount_integrity (s : ManagedVertexMap) (h : StoreReachable s)
    (k : Nat) : s.count k = parentsContaining s k :=
  count_eq_parentsContaining s (storeReachable_inv s h) k

theorem refcount_integrity_witness :
    ((((ManagedVertexMap.mk [] []).insert (1, ⟨1, []⟩)).1).insert
      (0, ⟨0, [1]⟩)).1.count 1 =
    parentsContaining ((((ManagedVertexMap.mk [] []).insert
      (1, ⟨1, []⟩)).1).insert (0, ⟨0, [1]⟩)).1 1 :=
  refcount_integrity _
    (StoreReachable.insert _ 0 ⟨0, [1]⟩
      (StoreReachable.insert _ 1 ⟨1, []⟩ StoreReachable.empty
        (by decide) (by decide))
      (by decide) (by decide)) 1

/-- C1, counterexample.  The claim quantifies over every state reachable
between public operations.  `insert` is public and accepts an occupied key
(silently keeping the stored vertex while appending the reference edges
again), so the store below - built by three public inserts, the last
re-inserting key `0` - is reachable; in it `referenceCount(1) = 2` while
only one distinct stored parent (the vertex under key `0`) lists `1` as a
child. -/
theorem refcount_integrity_cex :
    ((((((ManagedVertexMap.mk [] []).insert (1, ⟨1, []⟩)).1).insert
      (0, ⟨0, [1]⟩)).1.insert (0, ⟨0, [1]⟩)).1.count 1 = 2) ∧
    (parentsContaining (((((ManagedVertexMap.mk [] []).insert
      (1, ⟨1, []⟩)).1).insert (0, ⟨0, [1]⟩)).1.insert (0, ⟨0, [1]⟩)).1 1
      = 1) := by
  decide

theorem find_none_of_sublist {s₁ s₂ : ManagedVertexMap}
    (h : s₁.vertices.Sublist s₂.vertices) {j : Nat}
    (hn : s₂.find j = none) : s₁.find j = none := by
  unfold ManagedVertexMap.find at hn ⊢
  cases hf2 : s₂.vertices.find? (fun p => p.1 == j) with
  | some pv => rw [hf2] at hn; cases hn
  | none =>
    cases hf1 : s₁.vertices.find? (fun p => p.1 == j) with
    | none => rfl
    | some pv =>
      have hmem : pv ∈ s₁.vertices := List.mem_of_find?_eq_some hf1
      have hp : (pv.1 == j) = true := by
        have := List.find?_some hf1
        simpa using this
      have hnp := List.find?_eq_none.mp hf2 pv (h.subset hmem)
      exact absurd hp (by simpa using hnp)

theorem keysNodup_of_vertices_sublist {s₁ s₂ : ManagedVertexMap}
    (h : s₁.vertices.Sublist s₂.vertices) (hK : KeysNodup s₂) :
    KeysNodup s₁ :=
  hK.sublist (h.map _)

/-- The cascading loop never leaves a newly orphaned vertex behind: any
vertex still stored when the loop finishes with reference count zero
already had reference count zero on entry (and no queued edge named it as
child).  This is the loop half of the cascading-deletion claim: whenever
removing an edge drops a child's count to zero the loop erases that
child's vertex too. -/
theorem eraseEdgeLoop_no_new_orphans (j : Nat) :
    ∀ (n : Nat) (s : ManagedVertexMap) (q : List Edge),
      loopMeasure s q ≤ n → KeysNodup s →
      (eraseEdgeLoop s q).find j ≠ none →
      (eraseEdgeLoop s q).count j = 0 →
      s.count j = 0 ∧ ∀ e ∈ q, e.1 ≠ j := by
  intro n
  induction n with
  | zero =>
    intro s q hmeas hK hf hc
    have hq : q = [] := by
      cases q with
      | nil => rfl
      | cons e rest => rw [loopMeasure_cons] at hmeas; omega
    subst hq
    rw [eraseEdgeLoop_nil] at hf hc
    exact ⟨hc, by intro e he; cases he⟩
  | succ n ih =>
    intro s q hmeas hK hf hc
    cases q with
    | nil =>
      rw [eraseEdgeLoop_nil] at hf hc
      exact ⟨hc, by intro e he; cases he⟩
    | cons e0 rest =>
      by_cases hχ :
          ((s.edges.erase e0).filter (fun p => p.1 == e0.1)).length = 0
      · cases hfind : s.vertices.find? (fun p => p.1 == e0.1) with
        | some pv =>
          have heq := eraseEdgeLoop_cons_erase s e0 rest hχ hfind
          rw [heq] at hf hc
          have hme := loopMeasure_erase_branch s e0 rest hfind
          have hcm := loopMeasure_cons s e0 rest
          have hres := ih _ _ (by omega) (keysNodup_eraseP s e0.1 hK _) hf hc
          have hne : e0.1 ≠ j := by
            intro he
            apply hf
            apply find_none_of_sublist (eraseEdgeLoop_vertices_sublist _ _)
            show ((s.vertices.eraseP (fun p => p.1 == e0.1)).find?
              (fun p => p.1 == j)).map (fun p => p.2) = none
            rw [← he, find?_eraseP_self s.vertices hK e0.1]
            rfl
          refine ⟨?_, ?_⟩
          · show (s.edges.filter (fun e => e.1 == j)).length = 0
            rw [← filter_erase_of_neg (fun e : Edge => e.1 == j) e0 s.edges
              (by simpa using hne)]
            exact hres.1
          · intro e he
            rcases List.mem_cons.mp he with h1 | h2
            · rw [h1]; exact hne
            · exact hres.2 e (List.mem_append_left _ h2)
        | none =>
          have heq := eraseEdgeLoop_cons_absent s e0 rest hχ hfind
          rw [heq] at hf hc
          have hcm := loopMeasure_cons s e0 rest
          have hrm : loopMeasure ⟨s.vertices, s.edges.erase e0⟩ rest =
              loopMeasure s rest := rfl
          have hres := ih ⟨s.vertices, s.edges.erase e0⟩ rest
            (by omega) hK hf hc
          have hne : e0.1 ≠ j := by
            intro he
            apply hf
            apply find_none_of_sublist (eraseEdgeLoop_vertices_sublist _ _)
            show (s.vertices.find? (fun p => p.1 == j)).map
              (fun p => p.2) = none
            rw [← he, hfind]
            rfl
          refine ⟨?_, ?_⟩
          · show (s.edges.filter (fun e => e.1 == j)).length = 0
            rw [← filter_erase_of_neg (fun e : Edge => e.1 == j) e0 s.edges
              (by simpa using hne)]
            exact hres.1
          · intro e he
            rcases List.mem_cons.mp he with h1 | h2
            · rw [h1]; exact hne
            · exact hres.2 e h2
      · have heq := eraseEdgeLoop_cons_live s e0 rest hχ
        rw [heq] at hf hc
        have hcm := loopMeasure_cons s e0 rest
        have hrm : loopMeasure ⟨s.vertices, s.edges.erase e0⟩ rest =
            loopMeasure s rest := rfl
        have hres := ih ⟨s.vertices, s.edges.erase e0⟩ rest
          (by omega) hK hf hc
        have hne : e0.1 ≠ j := by
          intro he
          apply hχ
          have h0 : ((s.edges.erase e0).filter
              (fun p => p.1 == j)).length = 0 := hres.1
          rw [← he] at h0
          exact h0
        refine ⟨?_, ?_⟩
        · show (s.edges.filter (fun e => e.1 == j)).length = 0
          rw [← filter_erase_of_neg (fun e : Edge => e.1 == j) e0 s.edges
            (by simpa using hne)]
          exact hres.1
        · intro e he
          rcases List.mem_cons.mp he with h1 | h2
          · rw [h1]; exact hne
          · exact hres.2 e h2

theorem eraseEdge_no_new_orphans (s : ManagedVertexMap) (e : Edge) (j : Nat)
    (hK : KeysNodup s)
    (hf : (s.eraseEdge e).find j ≠ none)
    (hc : (s.eraseEdge e).count j = 0) :
    s.count j = 0 := by
  unfold ManagedVertexMap.eraseEdge at hf hc
  by_cases hmem : s.edges.contains e
  · rw [if_pos hmem] at hf hc
    exact (eraseEdgeLoop_no_new_orphans j (loopMeasure s [e]) s [e]
      (Nat.le_refl _) hK hf hc).1
  · rw [if_neg hmem] at hf hc
    exact hc

theorem foldl_eraseEdge_vertices_sublist (k : Nat) :
    ∀ (cs : List Nat) (s : ManagedVertexMap),
      (cs.foldl (fun st c => st.eraseEdge (c, k)) s).vertices.Sublist
        s.vertices := by
  intro cs
  induction cs with
  | nil => intro s; exact List.Sublist.refl _
  | cons c cs ih =>
    intro s
    rw [List.foldl_cons]
    exact (ih _).trans (eraseEdge_vertices_sublist s (c, k))

theorem foldl_eraseEdge_no_new_orphans (k : Nat) :
    ∀ (cs : List Nat) (s : ManagedVertexMap) (j : Nat),
      KeysNodup s →
      (cs.foldl (fun st c => st.eraseEdge (c, k)) s).find j ≠ none →
      (cs.foldl (fun st c => st.eraseEdge (c, k)) s).count j = 0 →
      s.count j = 0 := by
  intro cs
  induction cs with
  | nil =>
    intro s j hK hf hc
    exact hc
  | cons c cs ih =>
    intro s j hK hf hc
    rw [List.foldl_cons] at hf hc
    have hK2 : KeysNodup (s.eraseEdge (c, k)) :=
      keysNodup_of_vertices_sublist (eraseEdge_vertices_sublist s (c, k)) hK
    have hmid : (s.eraseEdge (c, k)).count j = 0 := ih _ j hK2 hf hc
    have hfmid : (s.eraseEdge (c, k)).find j ≠ none := by
      intro hnone
      exact hf (find_none_of_sublist
        (foldl_eraseEdge_vertices_sublist k cs _) hnone)
    exact eraseEdge_no_new_orphans s (c, k) j hK hfmid hmid

/-- C4.  Cascading deletion: erasing a stored vertex `k` whose reference
count is zero (a) removes `k`'s map entry from the store, (b) leaves no
reference edge `(c, k)` from `k` to any child behind, and (c) creates no
new orphan - any vertex still stored afterwards whose reference count is
zero already had reference count zero before the erase, i.e. every vertex
the cascade transitively unreferenced from that frontier has been erased
with it, the processing running iteratively over the explicit work queue
of `eraseEdgeLoop` rather than by recursion. -/
theorem cascade_erase_correct (s : ManagedVertexMap) (k : Nat) (v0 : Vertex)
    (hI : Inv s) (hf : s.find k = some v0) (hc : s.count k = 0) :
    (s.erase k).find k = none ∧
    (∀ c : Nat, ((c, k) : Edge) ∉ (s.erase k).edges) ∧
    (∀ j : Nat, (s.erase k).find j ≠ none → (s.erase k).count j = 0 →
      s.count j = 0) := by
  obtain ⟨hM, hD, hK⟩ := hI
  have hres : s.erase k =
      ⟨(v0.children.foldl (fun st c => st.eraseEdge (c, k))
          s).vertices.eraseP (fun p => p.1 == k),
        (v0.children.foldl (fun st c => st.eraseEdge (c, k)) s).edges⟩ := by
    unfold ManagedVertexMap.erase
    cases hfx : s.find k with
    | none => rw [hfx] at hf; cases hf
    | some v =>
      rw [hf] at hfx
      injection hfx with hv
      subst hv
      show (if s.count k = 0 then
        ⟨(v0.children.foldl (fun st c => st.eraseEdge (c, k))
            s).vertices.eraseP (fun p => p.1 == k),
          (v0.children.foldl (fun st c => st.eraseEdge (c, k))
            s).edges⟩
        else s) = _
      rw [if_pos hc]
  have hKfold : KeysNodup
      (v0.children.foldl (fun st c => st.eraseEdge (c, k)) s) :=
    keysNodup_of_vertices_sublist
      (foldl_eraseEdge_vertices_sublist k v0.children s) hK
  have ha : (s.erase k).find k = none := by
    rw [hres]
    show (((v0.children.foldl (fun st c => st.eraseEdge (c, k))
        s).vertices.eraseP (fun p => p.1 == k)).find?
        (fun p => p.1 == k)).map (fun p => p.2) = none
    rw [find?_eraseP_self _ hKfold k]
    rfl
  have hInv2 := erase_preserves_inv s k ⟨hM, hD, hK⟩
  refine ⟨ha, ?_, ?_⟩
  · intro c hmem
    have h0 : (s.erase k).edges.count ((c, k) : Edge) = 0 := by
      rw [hInv2.1 ((c, k) : Edge)]
      exact vmult_eq_zero
        (show (s.erase k).find ((c, k) : Edge).2 = none from ha)
    exact (List.count_eq_zero.mp h0) hmem
  · intro j hfj hcj0
    have hfold_f : (v0.children.foldl (fun st c => st.eraseEdge (c, k))
        s).find j ≠ none := by
      intro hn
      apply hfj
      rw [hres]
      refine find_none_of_sublist ?_ hn
      show ((v0.children.foldl (fun st c => st.eraseEdge (c, k))
          s).vertices.eraseP (fun p => p.1 == k)).Sublist
        (v0.children.foldl (fun st c => st.eraseEdge (c, k)) s).vertices
      exact List.eraseP_sublist _
    have hfold_c : (v0.children.foldl (fun st c => st.eraseEdge (c, k))
        s).count j = 0 := by
      rw [hres] at hcj0
      exact hcj0
    exact foldl_eraseEdge_no_new_orphans k v0.children s j hK hfold_f hfold_c

theorem cascade_erase_correct_witness :
    (((((ManagedVertexMap.mk [] []).insert (1, ⟨1, []⟩)).1).insert
        (0, ⟨0, [1]⟩)).1.find 0 = some ⟨0, [1]⟩) ∧
    (((((ManagedVertexMap.mk [] []).insert (1, ⟨1, []⟩)).1).insert
        (0, ⟨0, [1]⟩)).1.count 0 = 0) ∧
    ((((((ManagedVertexMap.mk [] []).insert (1, ⟨1, []⟩)).1).insert
        (0, ⟨0, [1]⟩)).1.erase 0).find 0 = none ∧
      (∀ c : Nat, ((c, 0) : Edge) ∉
        (((((ManagedVertexMap.mk [] []).insert (1, ⟨1, []⟩)).1).insert
          (0, ⟨0, [1]⟩)).1.erase 0).edges) ∧
      (∀ j : Nat,
        (((((ManagedVertexMap.mk [] []).insert (1, ⟨1, []⟩)).1).insert
          (0, ⟨0, [1]⟩)).1.erase 0).find j ≠ none →
        (((((ManagedVertexMap.mk [] []).insert (1, ⟨1, []⟩)).1).insert
          (0, ⟨0, [1]⟩)).1.erase 0).count j = 0 →
        ((((ManagedVertexMap.mk [] []).insert (1, ⟨1, []⟩)).1).insert
          (0, ⟨0, [1]⟩)).1.count j = 0)) :=
  ⟨by decide, by decide,
    cascade_erase_correct _ 0 ⟨0, [1]⟩
      (storeReachable_inv _
        (StoreReachable.insert _ 0 ⟨0, [1]⟩
          (StoreReachable.insert _ 1 ⟨1, []⟩ StoreReachable.empty
            (by decide) (by decide))
          (by decide) (by decide)))
      (by decide) (by decide)⟩

end VertexLib